import Mathlib

/-!
# marclib: the MARC-21 record codec of `MarcUtil.cc`

A shallow embedding of `ReadFields`, `ReadNextRecord`, `ComposeRecord` and
`RecordSeemsCorrect` (`src/MarcUtil.cc`), of the copy of `RecordSeemsCorrect` in
`src/marc_grep.cc`, and of `StringUtil::PadLeading` and `StringUtil::Split`
(`src/StringUtil.cc`).  The classes `Leader` and `DirectoryEntry` are
declared in headers that are not among the sources; what these functions use of them is
modelled from the specification and marked so.

Conventions of the embedding.

* A `std::string` holding record data is a list of byte codes (`Str`); a `char` is its
  code, a natural number below 256.  Error messages are Lean strings.
* Output parameters (`fields`, `err_msg`, `leader`, ...) are passed in and returned: every
  function returns the contents of its output parameters together with its return value.
* `size_t` is 64 bits wide.  A `std::string` is shorter than `2^63` bytes and a field length is
  an `unsigned`, so the only `size_t` operations of this code that can wrap are the
  subtractions; those are embedded with their wrap-around (`size_t_pred`, `size_t_sub`).
  The additions `field_start + field_length` of `ReadFields` stay below `2^64` because the
  loop is left as soon as the sum reaches `raw_fields.length()`; they are embedded in `Nat`.
* An access outside a string (`operator[]` beyond `size()`) or an array bound beyond the
  largest object size is undefined behaviour in C++; the embedding is total and returns
  `Outcome.undefined` there.  An exception that leaves the function is `Outcome.thrown`.
-/

/-- The contents of a `std::string`: its bytes, in order. -/
abbrev Str := List Nat

/-- How a call ends: it returns, it is left by a C++ exception, or it runs into undefined
behaviour (an access outside a string or an impossible array bound). -/
inductive Outcome (α : Type) where
  | ret (a : α)
  | thrown
  | undefined
deriving DecidableEq, Repr

/-- The field terminator byte `'\x1E'`. -/
def FIELD_TERMINATOR : Nat := 0x1E

/-- The record terminator byte `'\x1D'`. -/
def RECORD_TERMINATOR : Nat := 0x1D

/-- The value of `n - 1` computed in `size_t`: `SIZE_MAX` when `n` is `0`. -/
def size_t_pred (n : Nat) : Nat :=
  if n = 0 then 2 ^ 64 - 1 else n - 1

/-- The value of `a - b` computed in `size_t`, for `a` and `b` below `2^64`. -/
def size_t_sub (a b : Nat) : Nat :=
  (a + 2 ^ 64 - b) % 2 ^ 64

/-- The largest value of `ssize_t` (and the largest size of an object). -/
def SSIZE_MAX : Nat := 2 ^ 63 - 1

/-- The expression `s[pos]` of `std::string`: the byte at `pos`, the terminating NUL at
`pos = s.size()`, and undefined behaviour (`none`) beyond. -/
def index (s : Str) (pos : Nat) : Option Nat :=
  if pos < s.length then s[pos]?
  else if pos = s.length then some 0
  else none

/-- The call `s.substr(pos, n)` of `std::string`: at most `n` bytes from `pos` on; it throws
`std::out_of_range` (`none`) when `pos > s.size()`. -/
def substr (s : Str) (pos n : Nat) : Option Str :=
  if pos > s.length then none else some ((s.drop pos).take n)

/-- The call `std::to_string(n)` for an unsigned `n`, digit by digit; `fuel` bounds the
number of digits. -/
def to_string_aux : Nat → Nat → Str → Str
  | 0, _, acc => acc
  | fuel + 1, n, acc =>
      if n / 10 = 0 then (0x30 + n % 10) :: acc
      else to_string_aux fuel (n / 10) ((0x30 + n % 10) :: acc)

/-- The call `std::to_string(n)` for an unsigned `n`: the decimal digits of `n` as bytes. -/
def to_string (n : Nat) : Str :=
  to_string_aux (n + 1) n []

namespace StringUtil

/-- `StringUtil::PadLeading` (`StringUtil.cc`). -/
def PadLeading (s : Str) (min_length : Nat) (pad_char : Nat) : Str :=
  let length := s.length
  if length ≥ min_length then s
  else List.replicate (min_length - length) pad_char ++ s

end StringUtil

/-- Whether a byte is an ASCII decimal digit. -/
def isDecimalDigit (c : Nat) : Bool :=
  decide (0x30 ≤ c) && decide (c ≤ 0x39)

/-- Modelled from the spec: the decoding of a fixed-width decimal field of a leader or of a
directory entry, which `Leader.cc` and `DirectoryEntry.cc` (not among the sources) do.  The
field "decodes as a decimal integer" and parsing fails "if a numeric subfield is
non-decimal": every byte has to be a digit. -/
def parseDecimal (s : Str) : Option Nat :=
  if s.all isDecimalDigit then some (s.foldl (fun acc c => 10 * acc + (c - 0x30)) 0)
  else none

/-- Modelled from the spec: class `Leader` (`Leader.h` is not among the sources).  It has
`record_length` and `base_address_of_data`, both unsigned, "plus the remaining leader bytes
retained verbatim": `raw_leader` holds the 24 bytes last parsed. -/
structure Leader where
  record_length : Nat
  base_address_of_data : Nat
  raw_leader : Str
deriving DecidableEq, Repr

namespace Leader

/-- Modelled from the spec: the constant `Leader::LEADER_LENGTH` of the absent `Leader.h`, the
"fixed 24-byte record header". -/
def LEADER_LENGTH : Nat := 24

/-- Modelled from the spec: `Leader::ParseLeader` of the absent `Leader.cc`.  The "input must be
exactly 24 bytes"; it "decodes record_length from bytes[0..5) and base_address_of_data
from bytes[12..17) as decimal integers" and fails "if either is non-numeric or the input
length is wrong".  The spec gives no text for the two messages. -/
def ParseLeader (leader_string : Str) : Except String Leader :=
  if leader_string.length ≠ LEADER_LENGTH then
    .error "Leader length must be 24!"
  else
    match parseDecimal (leader_string.take 5), parseDecimal ((leader_string.drop 12).take 5) with
    | some record_length, some base_address_of_data =>
        .ok ⟨record_length, base_address_of_data, leader_string⟩
    | _, _ => .error "Malformed leader: a length field is not numeric!"

/-- Modelled from the spec: `Leader::setRecordLength` of the absent `Leader.h`. -/
def setRecordLength (leader : Leader) (record_length : Nat) : Leader :=
  { leader with record_length := record_length }

/-- Modelled from the spec: `Leader::setBaseAddressOfData` of the absent `Leader.h`. -/
def setBaseAddressOfData (leader : Leader) (base_address_of_data : Nat) : Leader :=
  { leader with base_address_of_data := base_address_of_data }

/-- Modelled from the spec: `Leader::toString` of the absent `Leader.cc`.  It "re-renders the
two decimal fields with leading zeros to fixed width, leaves all other retained bytes
unchanged". -/
def toString (leader : Leader) : Str :=
  StringUtil.PadLeading (to_string leader.record_length) 5 0x30
    ++ (leader.raw_leader.drop 5).take 7
    ++ StringUtil.PadLeading (to_string leader.base_address_of_data) 5 0x30
    ++ (leader.raw_leader.drop 17).take 7

end Leader

/-- Modelled from the spec: class `DirectoryEntry` (`DirectoryEntry.h` is not among the
sources): a 3-byte `tag`, the `field_length` (which counts the trailing field terminator) and
the 5-digit field-start value of the slot. -/
structure DirectoryEntry where
  tag : Str
  field_length : Nat
  field_offset : Nat
deriving DecidableEq, Repr

namespace DirectoryEntry

/-- Modelled from the spec: the constant `DirectoryEntry::DIRECTORY_ENTRY_LENGTH` of the absent
`DirectoryEntry.h`, the "fixed 12-byte directory slots". -/
def DIRECTORY_ENTRY_LENGTH : Nat := 12

/-- Modelled from the spec: the decoding of one 12-byte slot, "3-byte tag (raw, no validation
beyond fixed width), 4-byte decimal field length, 5-byte decimal field-start value". -/
def parseEntry (raw_entry : Str) : Option DirectoryEntry :=
  match parseDecimal ((raw_entry.drop 3).take 4), parseDecimal ((raw_entry.drop 7).take 5) with
  | some field_length, some field_offset => some ⟨raw_entry.take 3, field_length, field_offset⟩
  | _, _ => none

/-- The first `count` slots of `entries_string`, decoded in order. -/
def parseSlots : Nat → Str → Option (List DirectoryEntry)
  | 0, _ => some []
  | count + 1, entries_string =>
      match parseEntry (entries_string.take DIRECTORY_ENTRY_LENGTH),
            parseSlots count (entries_string.drop DIRECTORY_ENTRY_LENGTH) with
      | some entry, some entries => some (entry :: entries)
      | _, _ => none

/-- Modelled from the spec: `DirectoryEntry::ParseDirEntries` of the absent `DirectoryEntry.cc`.
Its input is the block of `base_address_of_data - 24` bytes that `ReadNextRecord` reads
behind the leader (`MarcUtil.cc`, lines 77-84; spec 4.4).  By the base-address convention
(glossary: the base address is "24 + directory bytes + 1"; the field terminator "ends ... the
directory block"; spec 6; `ComposeRecord`, lines 121 and 128; `RecordSeemsCorrect`, lines 168
and 175) this block is the 12-byte slots followed by one `0x1E`.  The slots have to be a
"multiple of 12" in length (spec 4.2), the byte behind them the field terminator, and the
function fails "if a numeric subfield is non-decimal".  The spec gives no text for the
messages. -/
def ParseDirEntries (entries_string : Str) : Except String (List DirectoryEntry) :=
  if entries_string.length % DIRECTORY_ENTRY_LENGTH ≠ 1 then
    .error "Raw directory entries string must be a multiple of 12 in length!"
  else if entries_string.getLast? ≠ some FIELD_TERMINATOR then
    .error "Missing field terminator at end of directory!"
  else
    match parseSlots (entries_string.length / DIRECTORY_ENTRY_LENGTH) entries_string with
    | some entries => .ok entries
    | none => .error "Malformed directory entry: a numeric subfield is not decimal!"

/-- Modelled from the spec: a decimal subfield of fixed width in the "fixed 12-byte encoding"
of a directory entry: the number with leading zeros on exactly `width` digits.  A number
with more digits has no place in the subfield (a parsed entry never holds one); the width
is kept and its last `width` digits are written. -/
def fixedDecimal (n width : Nat) : Str :=
  let digits := StringUtil.PadLeading (to_string n) width 0x30
  digits.drop (digits.length - width)

/-- Modelled from the spec: `DirectoryEntry::toString` of the absent `DirectoryEntry.cc`, the
"fixed 12-byte encoding" of one entry: the 3-byte tag, the field length on 4 digits and the
field-start value on 5 digits.  `ComposeRecord` takes the directory as `const` and calls
`toString()` on each entry by itself (line 127), so the field-start value written is the one
the entry holds: the running offset of spec 4.2 when the entries hold running offsets. -/
def toString (dir_entry : DirectoryEntry) : Str :=
  dir_entry.tag
    ++ fixedDecimal dir_entry.field_length 4
    ++ fixedDecimal dir_entry.field_offset 5

end DirectoryEntry

namespace MarcUtil

/-- What `ReadFields` leaves behind: its return value and its two output parameters. -/
structure FieldsResult where
  ok : Bool
  fields : List Str
  err_msg : String
deriving DecidableEq, Repr

/-- The loop of `ReadFields` over the directory entries still to come, followed by the final
test; `field_start`, `fields` and `err_msg` are the state on entry. -/
def ReadFields.loop (raw_fields : Str) :
    List DirectoryEntry → Nat → List Str → String → Outcome FieldsResult
  | [], field_start, fields, err_msg =>
      if field_start + 1 ≠ raw_fields.length then
        .ret ⟨false, fields, "field extents do not exhaust record!"⟩
      else
        .ret ⟨true, fields, err_msg⟩
  | dir_entry :: rest, field_start, fields, err_msg =>
      let next_field_start := field_start + dir_entry.field_length
      if next_field_start ≥ raw_fields.length then
        .ret ⟨false, fields, "misaligned field, extending past the record!"⟩
      else
        match substr raw_fields field_start dir_entry.field_length with
        | none => .thrown
        | some field =>
            match index field (size_t_pred field.length) with
            | none => .undefined
            | some last =>
                if last ≠ FIELD_TERMINATOR then
                  .ret ⟨false, fields, "missing field terminator at end of field!"⟩
                else
                  match substr field 0 (size_t_pred field.length) with
                  | none => .thrown
                  | some content =>
                      ReadFields.loop raw_fields rest next_field_start (fields ++ [content]) err_msg

/-- `MarcUtil::ReadFields` (`MarcUtil.cc`, lines 7-42).  `fields` and `err_msg` are the
contents of the two output parameters before the call. -/
def ReadFields (raw_fields : Str) (dir_entries : List DirectoryEntry)
    (_fields : List Str) (err_msg : String) : Outcome FieldsResult :=
  -- fields->clear()
  match index raw_fields (size_t_pred raw_fields.length) with
  | none => .undefined
  | some last =>
      if last ≠ RECORD_TERMINATOR then
        .ret ⟨false, [], "missing trailing record terminator!"⟩
      else
        ReadFields.loop raw_fields dir_entries 0 [] err_msg

/-- `MarcUtil::ComposeRecord` (`MarcUtil.cc`, lines 109-136): the record it returns, and the
leader it leaves behind (the function writes `record_length` and `base_address_of_data`
into `*leader`). -/
def ComposeRecord (dir_entries : List DirectoryEntry) (fields : List Str) (leader : Leader) :
    Str × Leader :=
  let record_size := Leader.LEADER_LENGTH
  let directory_size := dir_entries.length * DirectoryEntry.DIRECTORY_ENTRY_LENGTH
  let record_size := record_size + directory_size
  let record_size := record_size + 1 -- field terminator
  let record_size :=
    dir_entries.foldl (fun size dir_entry => size + dir_entry.field_length) record_size
  let record_size := record_size + 1 -- record terminator
  let leader := leader.setRecordLength record_size
  let leader := leader.setBaseAddressOfData (Leader.LEADER_LENGTH + directory_size + 1)
  let record : Str := []
  let record := record ++ leader.toString
  let record := dir_entries.foldl (fun record dir_entry => record ++ dir_entry.toString) record
  let record := record ++ [FIELD_TERMINATOR]
  let record := fields.foldl (fun record field => record ++ field ++ [FIELD_TERMINATOR]) record
  let record := record ++ [RECORD_TERMINATOR]
  (record, leader)

/-- The call `std::fread(buf, 1, count, input)` on a stream whose unread bytes are `input`: the
bytes read (at most `count`, fewer only at the end of the stream) and the bytes left. -/
def fread (input : Str) (count : Nat) : Str × Str :=
  (input.take count, input.drop count)

/-- What `ReadNextRecord` leaves behind: its return value, the unread rest of the stream and
its four output parameters. -/
structure RecordResult where
  ok : Bool
  input : Str
  leader : Option Leader
  dir_entries : List DirectoryEntry
  field_data : List Str
  err_msg : String
deriving DecidableEq, Repr

/-- `MarcUtil::ReadNextRecord` (`MarcUtil.cc`, lines 47-105) on a stream whose unread bytes are
`input`.  The three vectors and the message are cleared first, so their previous contents
do not matter; `leader` is what `*leader` held before the call.

The two variable-length arrays: `directory_length` is an `ssize_t`, negative when the base
address is below 24, and `field_data_size` is a `size_t`, which wraps when the record length
is below the base address; an array of negative size or larger than the largest object is
undefined behaviour. -/
def ReadNextRecord (input : Str) (leader : Option Leader) : Outcome RecordResult :=
  let (leader_buf, input) := fread input Leader.LEADER_LENGTH
  let read_count := leader_buf.length
  if read_count ≠ Leader.LEADER_LENGTH then
    .ret ⟨false, input, leader, [], [],
      if read_count ≠ 0 then "Short read for a leader or premature EOF!" else ""⟩
  else
    match Leader.ParseLeader leader_buf with
    | .error err_msg => .ret ⟨false, input, none, [], [], err_msg⟩
    | .ok new_leader =>
        if new_leader.base_address_of_data < Leader.LEADER_LENGTH then .undefined
        else
          let directory_length := new_leader.base_address_of_data - Leader.LEADER_LENGTH
          let (directory_buf, input) := fread input directory_length
          if directory_buf.length ≠ directory_length then
            .ret ⟨false, input, some new_leader, [], [],
              "Short read for a directory or premature EOF!"⟩
          else
            match DirectoryEntry.ParseDirEntries directory_buf with
            | .error err_msg => .ret ⟨false, input, some new_leader, [], [], err_msg⟩
            | .ok dir_entries =>
                let field_data_size :=
                  size_t_sub (size_t_sub new_leader.record_length Leader.LEADER_LENGTH)
                    directory_length
                if field_data_size > SSIZE_MAX then .undefined
                else
                  let (raw_field_data, input) := fread input field_data_size
                  let read_count := raw_field_data.length
                  if read_count ≠ field_data_size then
                    .ret ⟨false, input, some new_leader, dir_entries, [],
                      "Short read for field data or premature EOF! (Expected "
                        ++ String.mk ((to_string field_data_size).map Char.ofNat) ++ " bytes, got "
                        ++ String.mk ((to_string read_count).map Char.ofNat) ++ " bytes.)"⟩
                  else
                    match ReadFields raw_field_data dir_entries [] "" with
                    | .thrown => .thrown
                    | .undefined => .undefined
                    | .ret r =>
                        .ret ⟨r.ok, input, some new_leader, dir_entries, r.fields, r.err_msg⟩

end MarcUtil

/-- The text of `std::to_string(n)`, as part of an error message. -/
def decimal (n : Nat) : String :=
  String.mk ((to_string n).map Char.ofNat)

namespace MarcUtil

/-- What `RecordSeemsCorrect` leaves behind: its return value and its output parameter. -/
structure CheckResult where
  ok : Bool
  err_msg : String
deriving DecidableEq, Repr

/-- `MarcUtil::RecordSeemsCorrect` (`MarcUtil.cc`, lines 140-186); `err_msg` is the content of
the output parameter before the call.  The two subtractions from the base address are made
behind the test `base_address_of_data <= LEADER_LENGTH` and cannot wrap. -/
def RecordSeemsCorrect (record : Str) (err_msg : String) : Outcome CheckResult :=
  if record.length < Leader.LEADER_LENGTH then
    .ret ⟨false, "record too small to contain leader!"⟩
  else
    match substr record 0 Leader.LEADER_LENGTH with
    | none => .thrown
    | some leader_string =>
        match Leader.ParseLeader leader_string with
        | .error parse_msg => .ret ⟨false, parse_msg⟩
        | .ok leader =>
            if leader.record_length ≠ record.length then
              .ret ⟨false, "leader's record length (" ++ decimal leader.record_length
                ++ ") does not equal actual record length (" ++ decimal record.length ++ ")!"⟩
            else if record.length > 99999 then
              .ret ⟨false, "record length (" ++ decimal record.length
                ++ ") exceeds maxium legal record length (99999)!"⟩
            else if leader.base_address_of_data ≤ Leader.LEADER_LENGTH then
              .ret ⟨false, "impossible base address of data!"⟩
            else
              let directory_length := leader.base_address_of_data - Leader.LEADER_LENGTH - 1
              if directory_length % DirectoryEntry.DIRECTORY_ENTRY_LENGTH ≠ 0 then
                .ret ⟨false, "directory length is not a multiple of "
                  ++ decimal DirectoryEntry.DIRECTORY_ENTRY_LENGTH ++ "!"⟩
              else
                match index record (leader.base_address_of_data - 1) with
                | none => .undefined
                | some terminator =>
                    if terminator ≠ FIELD_TERMINATOR then
                      .ret ⟨false, "directory is not terminated with a field terminator!"⟩
                    else
                      match index record (size_t_pred record.length) with
                      | none => .undefined
                      | some last =>
                          if last ≠ RECORD_TERMINATOR then
                            .ret ⟨false, "record is not terminated with a record terminator!"⟩
                          else
                            .ret ⟨true, err_msg⟩

end MarcUtil

namespace StringUtil

/-- The search of `std::string::find` through the bytes `rest`, the first of which is at
position `pos`. -/
def find.go (c : Nat) : Str → Nat → Option Nat
  | [], _ => none
  | x :: rest, pos => if x = c then some pos else find.go c rest (pos + 1)

/-- The call `s.find(c, pos)` of `std::string`: the first position at or behind `pos` that
holds `c`; `none` is `std::string::npos`. -/
def find (s : Str) (c : Nat) (pos : Nat) : Option Nat :=
  find.go c (s.drop pos) pos

/-- The call `s.substr(pos)` of `std::string`, all bytes from `pos` on; it throws
`std::out_of_range` (`none`) when `pos > s.size()`. -/
def substr_from (s : Str) (pos : Nat) : Option Str :=
  if pos > s.length then none else some (s.drop pos)

/-- The `while` loop of `StringUtil::Split`: from `start_pos`, `next_delim_pos` and `pieces`
at its head to `start_pos` and `pieces` behind it.  The first argument bounds the number of
iterations; the result is `none` when the loop is still running after that many.  The
difference `next_delim_pos - start_pos` cannot wrap: `find` searches from `start_pos` on. -/
def Split.loop (s : Str) (delimiter : Nat) :
    Nat → Nat → Option Nat → List Str → Option (Outcome (Nat × List Str))
  | _, start_pos, none, pieces => some (.ret (start_pos, pieces))
  | 0, _, some _, _ => none
  | fuel + 1, start_pos, some next_delim_pos, pieces =>
      match substr s start_pos (next_delim_pos - start_pos) with
      | none => some .thrown
      | some piece =>
          Split.loop s delimiter fuel (next_delim_pos + 1) (find s delimiter (next_delim_pos + 1))
            (pieces ++ [piece])

/-- `StringUtil::Split` (`StringUtil.cc`, lines 16-30): the number it returns and the pieces
it leaves in `*pieces`, whose previous content is `_pieces`.  The loop is given
`s.length() + 1` iterations. -/
def Split (s : Str) (delimiter : Nat) (_pieces : List Str) :
    Option (Outcome (Nat × List Str)) :=
  -- pieces->clear()
  match Split.loop s delimiter (s.length + 1) 0 (find s delimiter 0) [] with
  | none => none
  | some .thrown => some .thrown
  | some .undefined => some .undefined
  | some (.ret (start_pos, pieces)) =>
      match substr_from s start_pos with
      | none => some .thrown
      | some piece => some (.ret ((pieces ++ [piece]).length, pieces ++ [piece]))

end StringUtil

namespace marc_grep

/-- The copy of `RecordSeemsCorrect` in `marc_grep.cc` (lines 162-202); `err_msg` is the
content of the output parameter before the call.  It is the function of `MarcUtil.cc`
without the test of the record length against 99999. -/
def RecordSeemsCorrect (record : Str) (err_msg : String) : Outcome MarcUtil.CheckResult :=
  if record.length < Leader.LEADER_LENGTH then
    .ret ⟨false, "record too small to contain leader!"⟩
  else
    match substr record 0 Leader.LEADER_LENGTH with
    | none => .thrown
    | some leader_string =>
        match Leader.ParseLeader leader_string with
        | .error parse_msg => .ret ⟨false, parse_msg⟩
        | .ok leader =>
            if leader.record_length ≠ record.length then
              .ret ⟨false, "leader's record length (" ++ decimal leader.record_length
                ++ ") does not equal actual record length (" ++ decimal record.length ++ ")!"⟩
            else if leader.base_address_of_data ≤ Leader.LEADER_LENGTH then
              .ret ⟨false, "impossible base address of data!"⟩
            else
              let directory_length := leader.base_address_of_data - Leader.LEADER_LENGTH - 1
              if directory_length % DirectoryEntry.DIRECTORY_ENTRY_LENGTH ≠ 0 then
                .ret ⟨false, "directory length is not a multiple of "
                  ++ decimal DirectoryEntry.DIRECTORY_ENTRY_LENGTH ++ "!"⟩
              else
                match index record (leader.base_address_of_data - 1) with
                | none => .undefined
                | some terminator =>
                    if terminator ≠ FIELD_TERMINATOR then
                      .ret ⟨false, "directory is not terminated with a field terminator!"⟩
                    else
                      match index record (size_t_pred record.length) with
                      | none => .undefined
                      | some last =>
                          if last ≠ RECORD_TERMINATOR then
                            .ret ⟨false, "record is not terminated with a record terminator!"⟩
                          else
                            .ret ⟨true, err_msg⟩

end marc_grep

/-! ## Vocabulary of the statements about `ReadFields` -/

/-- The sum of the `field_length` values of a directory. -/
def totalFieldLength (dir_entries : List DirectoryEntry) : Nat :=
  (dir_entries.map DirectoryEntry.field_length).sum

/-- The offset in the field data at which field `i` starts: the sum of the field lengths of
the entries before entry `i`. -/
def fieldStart (dir_entries : List DirectoryEntry) (i : Nat) : Nat :=
  totalFieldLength (dir_entries.take i)

/-- The offset in the field data just past field `i`: the sum of the field lengths of the
entries up to and including entry `i`. -/
def fieldEnd (dir_entries : List DirectoryEntry) (i : Nat) : Nat :=
  totalFieldLength (dir_entries.take (i + 1))

/-- The field contents a directory cuts out of `raw_fields` from offset `start` on: for each
entry its slice without the last byte. -/
def fieldsFrom (raw_fields : Str) : List DirectoryEntry → Nat → List Str
  | [], _ => []
  | dir_entry :: rest, start =>
      (raw_fields.drop start).take (dir_entry.field_length - 1)
        :: fieldsFrom raw_fields rest (start + dir_entry.field_length)

/-- Every slice a directory cuts out of `raw_fields` from offset `start` on ends in the field
terminator. -/
def terminatedFrom (raw_fields : Str) : List DirectoryEntry → Nat → Prop
  | [], _ => True
  | dir_entry :: rest, start =>
      raw_fields[start + dir_entry.field_length - 1]? = some FIELD_TERMINATOR
        ∧ terminatedFrom raw_fields rest (start + dir_entry.field_length)

instance terminatedFrom.decidable (raw_fields : Str) :
    (dir_entries : List DirectoryEntry) → (start : Nat) →
      Decidable (terminatedFrom raw_fields dir_entries start)
  | [], _ => isTrue trivial
  | dir_entry :: rest, start =>
      @instDecidableAnd _ _ _
        (terminatedFrom.decidable raw_fields rest (start + dir_entry.field_length))

/-! ## Vocabulary of the statements about `RecordSeemsCorrect` -/

/-- The checks of the record validator in the order in which the specification lists them
(section 4.5): the message of the first check that `record` violates, and `none` when it
passes all eight. -/
def firstViolatedCheck (record : Str) : Option String :=
  if ¬ 24 ≤ record.length then
    some "record too small to contain leader!"
  else
    match Leader.ParseLeader (record.take 24) with
    | .error parse_msg => some parse_msg
    | .ok leader =>
        if ¬ leader.record_length = record.length then
          some ("leader's record length (" ++ decimal leader.record_length
            ++ ") does not equal actual record length (" ++ decimal record.length ++ ")!")
        else if ¬ record.length ≤ 99999 then
          some ("record length (" ++ decimal record.length
            ++ ") exceeds maxium legal record length (99999)!")
        else if ¬ 24 < leader.base_address_of_data then
          some "impossible base address of data!"
        else if ¬ (leader.base_address_of_data - 24 - 1) % 12 = 0 then
          some "directory length is not a multiple of 12!"
        else if ¬ record[leader.base_address_of_data - 1]? = some FIELD_TERMINATOR then
          some "directory is not terminated with a field terminator!"
        else if ¬ record.getLast? = some RECORD_TERMINATOR then
          some "record is not terminated with a record terminator!"
        else
          none

namespace DirectoryEntry

/-- Modelled from the spec: the directory bytes in the words of spec 4.2 for `serialize_all`,
from the running offset `offset` on: "concatenation of each entry's fixed 12-byte encoding,
in input order, with the field-start value recomputed as the running byte offset of that
field within the field-data segment".  No function of the sources calls it: it is what the
bytes `ComposeRecord` writes are compared with. -/
def serialize_from : List DirectoryEntry → Nat → Str
  | [], _ => []
  | dir_entry :: rest, offset =>
      toString { dir_entry with field_offset := offset }
        ++ serialize_from rest (offset + dir_entry.field_length)

/-- Modelled from the spec: `serialize_all` of spec 4.2, the running offset starting at 0. -/
def serialize_all (entries : List DirectoryEntry) : Str :=
  serialize_from entries 0

end DirectoryEntry

/-! ## Sample data -/

/-- The tag `"001"`. -/
def tag001 : Str := [0x30, 0x30, 0x31]

/-- The tag `"245"`. -/
def tag245 : Str := [0x32, 0x34, 0x35]

/-- A directory of two entries: field `001` of length 4 and field `245` of length 2. -/
def sampleDirectory : List DirectoryEntry :=
  [⟨tag001, 4, 0⟩, ⟨tag245, 2, 4⟩]

/-- The field contents `"123"` and `"4"`. -/
def sampleFields : List Str :=
  [[0x31, 0x32, 0x33], [0x34]]

/-- The field data of `sampleFields`: `"123"`, `0x1E`, `"4"`, `0x1E`, `0x1D`. -/
def sampleFieldData : Str :=
  [0x31, 0x32, 0x33, 0x1E, 0x34, 0x1E, 0x1D]

/-- A stream of one record: the leader with record length `00056` and base address `00049`,
the two directory entries of `sampleDirectory`, the `0x1E` that ends the directory, and
`sampleFieldData`. -/
def sampleStream : Str :=
  [0x30, 0x30, 0x30, 0x35, 0x36] ++ List.replicate 7 0x20
    ++ [0x30, 0x30, 0x30, 0x34, 0x39] ++ List.replicate 7 0x20
    ++ tag001 ++ [0x30, 0x30, 0x30, 0x34] ++ [0x30, 0x30, 0x30, 0x30, 0x30]
    ++ tag245 ++ [0x30, 0x30, 0x30, 0x32] ++ [0x30, 0x30, 0x30, 0x30, 0x34]
    ++ [0x1E]
    ++ sampleFieldData

/-- The leader `ParseLeader` makes of the first 24 bytes of `sampleStream`. -/
def sampleLeader : Leader :=
  ⟨56, 49, sampleStream.take 24⟩

/-- A record of 99 bytes whose leader gives the record length `00100` and the base address
`00037`; the bytes behind the leader are blanks. -/
def shortRecord : Str :=
  [0x30, 0x30, 0x31, 0x30, 0x30] ++ List.replicate 7 0x20
    ++ [0x30, 0x30, 0x30, 0x33, 0x37] ++ List.replicate 7 0x20
    ++ List.replicate 75 0x20

/-- The field data of the first scenario of the specification: `"123"`, `0x1E`, `0x1D`. -/
def scenarioFieldData : Str :=
  [0x31, 0x32, 0x33, 0x1E, 0x1D]

/-- Fields with terminator and delimiter bytes inside, and an empty field: `0x1E 0x1D`, the
empty string, and `0x1F "A" 0x1E`. -/
def binaryFields : List Str :=
  [[0x1E, 0x1D], [], [0x1F, 0x41, 0x1E]]

/-- The directory that goes with `binaryFields`: every field length is the length of the
field plus 1. -/
def binaryDirectory : List DirectoryEntry :=
  [⟨tag001, 3, 0⟩, ⟨tag245, 1, 3⟩, ⟨tag245, 4, 4⟩]

/-- A stream of 25 bytes: a leader whose record length and base address are both `00025`,
and the `0x1E` of an empty directory, so that no field data follows. -/
def bareLeaderStream : Str :=
  [0x30, 0x30, 0x30, 0x32, 0x35] ++ List.replicate 7 0x20
    ++ [0x30, 0x30, 0x30, 0x32, 0x35] ++ List.replicate 7 0x20
    ++ [0x1E]

/-- A record of 30 bytes whose leader gives the record length `00030` and the base address
`00037`, beyond the end of the record; the bytes behind the leader are blanks. -/
def overrunRecord : Str :=
  [0x30, 0x30, 0x30, 0x33, 0x30] ++ List.replicate 7 0x20
    ++ [0x30, 0x30, 0x30, 0x33, 0x37] ++ List.replicate 7 0x20
    ++ List.replicate 6 0x20

/-! ## Strings -/

theorem substr_of_le (s : Str) (pos n : Nat) (h : pos ≤ s.length) :
    substr s pos n = some ((s.drop pos).take n) := by
  simp [substr]; omega

theorem index_of_lt (s : Str) (pos : Nat) (h : pos < s.length) :
    index s pos = s[pos]? := by
  simp [index, h]

theorem index_nil_pred : index [] (size_t_pred 0) = none := by
  decide

theorem size_t_pred_of_pos (n : Nat) (h : 1 ≤ n) : size_t_pred n = n - 1 := by
  simp [size_t_pred]; omega

/-- The byte `s[s.size() - 1]` of a non-empty string is its last byte. -/
theorem index_last (s : Str) (h : s ≠ []) :
    index s (size_t_pred s.length) = s.getLast? := by
  have hpos : 1 ≤ s.length := List.length_pos.mpr h
  rw [size_t_pred_of_pos _ hpos, index_of_lt _ _ (by omega), List.getLast?_eq_getElem?]

namespace MarcUtil

/-! ## One iteration of the loop of `ReadFields` -/

theorem loop_cons_overrun (R : Str) (e : DirectoryEntry) (es : List DirectoryEntry) (s : Nat)
    (acc : List Str) (m : String) (h : R.length ≤ s + e.field_length) :
    ReadFields.loop R (e :: es) s acc m
      = .ret ⟨false, acc, "misaligned field, extending past the record!"⟩ := by
  simp [ReadFields.loop, h]

theorem loop_cons_zero (R : Str) (e : DirectoryEntry) (es : List DirectoryEntry) (s : Nat)
    (acc : List Str) (m : String) (h0 : e.field_length = 0) (h : s < R.length) :
    ReadFields.loop R (e :: es) s acc m = .undefined := by
  have hn : ¬ (s + e.field_length ≥ R.length) := by omega
  simp only [ReadFields.loop, hn, if_false]
  rw [substr_of_le R s _ (by omega), h0]
  simp only [List.take_zero, List.length_nil, index_nil_pred]

theorem loop_cons_step (R : Str) (e : DirectoryEntry) (es : List DirectoryEntry) (s : Nat)
    (acc : List Str) (m : String) (h1 : 1 ≤ e.field_length) (h : s + e.field_length < R.length) :
    ReadFields.loop R (e :: es) s acc m
      = if R[s + e.field_length - 1]? ≠ some FIELD_TERMINATOR then
          .ret ⟨false, acc, "missing field terminator at end of field!"⟩
        else
          ReadFields.loop R es (s + e.field_length)
            (acc ++ [(R.drop s).take (e.field_length - 1)]) m := by
  have hlen : ((R.drop s).take e.field_length).length = e.field_length := by
    simp; omega
  have hn : ¬ (s + e.field_length ≥ R.length) := by omega
  have hp : size_t_pred e.field_length = e.field_length - 1 := size_t_pred_of_pos _ h1
  have hlast : ((R.drop s).take e.field_length)[e.field_length - 1]?
      = R[s + e.field_length - 1]? := by
    rw [List.getElem?_take_of_lt (by omega), List.getElem?_drop]
    congr 1; omega
  have hR : (s + e.field_length - 1) < R.length := by omega
  simp only [ReadFields.loop, hn, if_false]
  rw [substr_of_le R s _ (by omega)]
  simp only [hlen, hp]
  rw [index_of_lt _ _ (by omega), substr_of_le _ 0 _ (by omega), hlast]
  rw [List.getElem?_eq_getElem hR]
  simp only [List.drop_zero, List.take_take, ne_eq, Option.some.injEq]
  have hmin : min (e.field_length - 1) e.field_length = e.field_length - 1 := by omega
  rw [hmin]

end MarcUtil

/-! ## The loop of `ReadFields` over a whole directory -/

namespace MarcUtil

theorem totalFieldLength_cons (e : DirectoryEntry) (es : List DirectoryEntry) :
    totalFieldLength (e :: es) = e.field_length + totalFieldLength es := by
  simp [totalFieldLength]

theorem totalFieldLength_append (xs ys : List DirectoryEntry) :
    totalFieldLength (xs ++ ys) = totalFieldLength xs + totalFieldLength ys := by
  simp [totalFieldLength]

/-- The loop runs through a prefix of the directory whose slices fit and are terminated. -/
theorem loop_prefix_run (R : Str) (pre rest : List DirectoryEntry) :
    ∀ (s : Nat) (acc : List Str) (m : String),
      (∀ e ∈ pre, 1 ≤ e.field_length) → terminatedFrom R pre s →
      s + totalFieldLength pre < R.length →
      ReadFields.loop R (pre ++ rest) s acc m
        = ReadFields.loop R rest (s + totalFieldLength pre) (acc ++ fieldsFrom R pre s) m := by
  induction pre with
  | nil => intro s acc m _ _ _; simp [totalFieldLength, fieldsFrom]
  | cons e es ih =>
    intro s acc m hpos hterm hfit
    rw [totalFieldLength_cons] at hfit
    have h1 : 1 ≤ e.field_length := hpos e (List.mem_cons_self _ _)
    rw [List.cons_append, loop_cons_step R e (es ++ rest) s acc m h1 (by omega)]
    rw [if_neg (by simpa using hterm.1)]
    rw [ih (s + e.field_length) _ m (fun x hx => hpos x (List.mem_cons_of_mem _ hx)) hterm.2
      (by omega)]
    simp [totalFieldLength_cons, fieldsFrom, Nat.add_assoc]

/-- What a successful run of the loop says about the directory and the field data. -/
theorem loop_ok_inv (R : Str) (D : List DirectoryEntry) :
    ∀ (s : Nat) (acc : List Str) (m : String) (F : List Str) (m' : String),
      ReadFields.loop R D s acc m = .ret ⟨true, F, m'⟩ →
      m' = m ∧ (∀ e ∈ D, 1 ≤ e.field_length) ∧ terminatedFrom R D s
        ∧ s + totalFieldLength D + 1 = R.length ∧ F = acc ++ fieldsFrom R D s := by
  induction D with
  | nil =>
    intro s acc m F m' h
    simp only [ReadFields.loop] at h
    split at h
    · simp at h
    · simp at h
      simp [totalFieldLength, fieldsFrom, terminatedFrom, h]
      omega
  | cons e es ih =>
    intro s acc m F m' h
    by_cases hover : R.length ≤ s + e.field_length
    · rw [loop_cons_overrun R e es s acc m hover] at h; simp at h
    · by_cases h0 : e.field_length = 0
      · rw [loop_cons_zero R e es s acc m h0 (by omega)] at h; simp at h
      · have h1 : 1 ≤ e.field_length := by omega
        rw [loop_cons_step R e es s acc m h1 (by omega)] at h
        split at h
        · simp at h
        · rename_i hterm
          obtain ⟨hm, hpos, ht, hlen, hF⟩ := ih _ _ _ _ _ h
          refine ⟨hm, ?_, ⟨by simpa using hterm, ht⟩, ?_, ?_⟩
          · intro x hx
            rcases List.mem_cons.mp hx with rfl | hx
            · exact h1
            · exact hpos x hx
          · rw [totalFieldLength_cons]; omega
          · simp [hF, fieldsFrom]


theorem fieldEnd_cons_zero (e : DirectoryEntry) (es : List DirectoryEntry) :
    fieldEnd (e :: es) 0 = e.field_length := by
  simp [fieldEnd, totalFieldLength]

theorem fieldEnd_cons_succ (e : DirectoryEntry) (es : List DirectoryEntry) (i : Nat) :
    fieldEnd (e :: es) (i + 1) = e.field_length + fieldEnd es i := by
  simp [fieldEnd, totalFieldLength]

theorem fieldStart_zero (D : List DirectoryEntry) : fieldStart D 0 = 0 := by
  simp [fieldStart, totalFieldLength]

theorem fieldStart_cons_succ (e : DirectoryEntry) (es : List DirectoryEntry) (i : Nat) :
    fieldStart (e :: es) (i + 1) = e.field_length + fieldStart es i := by
  simp [fieldStart, totalFieldLength]

/-- The recursive and the indexed way to say that every slice ends in the field terminator. -/
theorem terminatedFrom_iff (R : Str) (D : List DirectoryEntry) :
    ∀ s : Nat, terminatedFrom R D s
      ↔ ∀ i, i < D.length → R[s + fieldEnd D i - 1]? = some FIELD_TERMINATOR := by
  induction D with
  | nil => intro s; simp [terminatedFrom]
  | cons e es ih =>
    intro s
    simp only [terminatedFrom, ih, List.length_cons]
    constructor
    · rintro ⟨h0, hs⟩ i hi
      cases i with
      | zero => rw [fieldEnd_cons_zero]; exact h0
      | succ j =>
        rw [fieldEnd_cons_succ, ← Nat.add_assoc]
        exact hs j (by omega)
    · intro h
      refine ⟨?_, ?_⟩
      · have := h 0 (by omega)
        rwa [fieldEnd_cons_zero] at this
      · intro i hi
        have := h (i + 1) (by omega)
        rwa [fieldEnd_cons_succ, ← Nat.add_assoc] at this

theorem fieldsFrom_length (R : Str) (D : List DirectoryEntry) :
    ∀ s : Nat, (fieldsFrom R D s).length = D.length := by
  induction D with
  | nil => intro s; rfl
  | cons e es ih => intro s; simp [fieldsFrom, ih]

theorem fieldsFrom_getElem? (R : Str) (D : List DirectoryEntry) :
    ∀ (s i : Nat) (h : i < D.length),
      (fieldsFrom R D s)[i]?
        = some ((R.drop (s + fieldStart D i)).take (D[i].field_length - 1)) := by
  induction D with
  | nil => intro s i h; simp at h
  | cons e es ih =>
    intro s i h
    cases i with
    | zero => simp [fieldsFrom, fieldStart_zero]
    | succ j =>
      simp only [List.length_cons, Nat.add_lt_add_iff_right] at h
      simp [fieldsFrom, fieldStart_cons_succ, ih (s + e.field_length) j h, Nat.add_assoc]

/-- Putting the terminators back behind the fields gives the bytes the directory covers. -/
theorem fieldsFrom_flatMap (R : Str) (D : List DirectoryEntry) :
    ∀ s : Nat, (∀ e ∈ D, 1 ≤ e.field_length) → terminatedFrom R D s →
      s + totalFieldLength D ≤ R.length →
      (fieldsFrom R D s).flatMap (fun field => field ++ [FIELD_TERMINATOR])
        = (R.drop s).take (totalFieldLength D) := by
  induction D with
  | nil => intro s _ _ _; simp [fieldsFrom, totalFieldLength]
  | cons e es ih =>
    intro s hpos hterm hfit
    rw [totalFieldLength_cons] at hfit ⊢
    have h1 : 1 ≤ e.field_length := hpos e (List.mem_cons_self _ _)
    have hrest := ih (s + e.field_length) (fun x hx => hpos x (List.mem_cons_of_mem _ hx))
      hterm.2 (by omega)
    have hlast : (R.drop s)[e.field_length - 1]? = some FIELD_TERMINATOR := by
      rw [List.getElem?_drop, ← hterm.1]; congr 1; omega
    have hslice : (R.drop s).take e.field_length
        = (R.drop s).take (e.field_length - 1) ++ [FIELD_TERMINATOR] := by
      have := List.take_succ (l := R.drop s) (n := e.field_length - 1)
      rw [hlast, Option.toList_some] at this
      rw [← this]; congr 1; omega
    simp only [fieldsFrom, List.flatMap_cons, hrest]
    rw [List.take_add, hslice, List.drop_drop]

end MarcUtil

/-! ## `ReadFields` as a whole, and the record `ComposeRecord` writes -/

namespace MarcUtil

theorem ReadFields_nil_blob (D : List DirectoryEntry) (f0 : List Str) (m0 : String) :
    ReadFields [] D f0 m0 = .undefined := by
  simp only [ReadFields, List.length_nil, index_nil_pred]

theorem ReadFields_of_last (R : Str) (D : List DirectoryEntry) (f0 : List Str) (m0 : String)
    (h : R.getLast? = some RECORD_TERMINATOR) :
    ReadFields R D f0 m0 = ReadFields.loop R D 0 [] m0 := by
  have hne : R ≠ [] := by rintro rfl; simp at h
  simp only [ReadFields, index_last R hne, h]
  simp

theorem ReadFields_of_not_last (R : Str) (D : List DirectoryEntry) (f0 : List Str) (m0 : String)
    (hne : R ≠ []) (h : R.getLast? ≠ some RECORD_TERMINATOR) :
    ReadFields R D f0 m0 = .ret ⟨false, [], "missing trailing record terminator!"⟩ := by
  have hpos : 1 ≤ R.length := List.length_pos.mpr hne
  obtain ⟨c, hc⟩ : ∃ c, R.getLast? = some c := by
    rw [List.getLast?_eq_getElem?]
    exact ⟨R[R.length - 1], List.getElem?_eq_getElem (by omega)⟩
  simp only [ReadFields, index_last R hne, hc]
  rw [hc] at h
  simp at h
  simp [h]

theorem ReadFields_ok_inv (R : Str) (D : List DirectoryEntry) (f0 : List Str) (m0 : String)
    (F : List Str) (m : String) (h : ReadFields R D f0 m0 = .ret ⟨true, F, m⟩) :
    R.getLast? = some RECORD_TERMINATOR ∧ ReadFields.loop R D 0 [] m0 = .ret ⟨true, F, m⟩ := by
  by_cases hne : R = []
  · subst hne; rw [ReadFields_nil_blob] at h; simp at h
  · by_cases hl : R.getLast? = some RECORD_TERMINATOR
    · exact ⟨hl, by rwa [ReadFields_of_last R D f0 m0 hl] at h⟩
    · rw [ReadFields_of_not_last R D f0 m0 hne hl] at h; simp at h

theorem fieldEnd_le_total (D : List DirectoryEntry) (i : Nat) :
    fieldEnd D i ≤ totalFieldLength D := by
  have := List.sum_take_add_sum_drop (D.map DirectoryEntry.field_length) (i + 1)
  simp only [fieldEnd, totalFieldLength, List.map_take]
  omega

theorem fieldEnd_eq (D : List DirectoryEntry) (i : Nat) (h : i < D.length) :
    fieldEnd D i = fieldStart D i + D[i].field_length := by
  simp only [fieldEnd, fieldStart, totalFieldLength, List.take_succ, List.map_append,
    List.sum_append, List.getElem?_eq_getElem h]
  simp

theorem fieldEnd_of_last (D : List DirectoryEntry) (i : Nat) (h : D.length ≤ i + 1) :
    fieldEnd D i = totalFieldLength D := by
  simp only [fieldEnd, List.take_of_length_le h]

/-- A slice that ends in the field terminator is its content followed by the terminator. -/
theorem slice_eq (R : Str) (s n : Nat) (h1 : 1 ≤ n)
    (h : R[s + n - 1]? = some FIELD_TERMINATOR) :
    (R.drop s).take n = (R.drop s).take (n - 1) ++ [FIELD_TERMINATOR] := by
  have hlast : (R.drop s)[n - 1]? = some FIELD_TERMINATOR := by
    rw [List.getElem?_drop, ← h]; congr 1; omega
  have := List.take_succ (l := R.drop s) (n := n - 1)
  rw [hlast, Option.toList_some] at this
  rw [← this]; congr 1; omega

theorem ComposeRecord_record (D : List DirectoryEntry) (F : List Str) (leader : Leader) :
    (ComposeRecord D F leader).1
      = (ComposeRecord D F leader).2.toString ++ D.flatMap DirectoryEntry.toString
          ++ [FIELD_TERMINATOR] ++ F.flatMap (fun field => field ++ [FIELD_TERMINATOR])
          ++ [RECORD_TERMINATOR] := by
  have hD : ∀ (D : List DirectoryEntry) (init : Str),
      D.foldl (fun record dir_entry => record ++ dir_entry.toString) init
        = init ++ D.flatMap DirectoryEntry.toString := by
    intro D
    induction D with
    | nil => intro init; simp
    | cons e es ih =>
      intro init
      rw [List.foldl_cons, ih, List.flatMap_cons]
      simp only [List.append_assoc]
  have hF : ∀ (F : List Str) (init : Str),
      F.foldl (fun record field => record ++ field ++ [FIELD_TERMINATOR]) init
        = init ++ F.flatMap (fun field => field ++ [FIELD_TERMINATOR]) := by
    intro F
    induction F with
    | nil => intro init; simp
    | cons f fs ih =>
      intro init
      rw [List.foldl_cons, ih, List.flatMap_cons]
      simp only [List.append_assoc]
  simp only [ComposeRecord, hD, hF, List.nil_append]

theorem ComposeRecord_record_size (D : List DirectoryEntry) (init : Nat) :
    D.foldl (fun size dir_entry => size + dir_entry.field_length) init
      = init + totalFieldLength D := by
  induction D generalizing init with
  | nil => simp [totalFieldLength]
  | cons e es ih => simp [ih, totalFieldLength_cons, Nat.add_assoc]

end MarcUtil

namespace MarcUtil

theorem length_le_totalFieldLength (D : List DirectoryEntry)
    (hpos : ∀ e ∈ D, 1 ≤ e.field_length) : D.length ≤ totalFieldLength D := by
  induction D with
  | nil => simp
  | cons e es ih =>
    have h1 := hpos e (List.mem_cons_self _ _)
    have := ih (fun x hx => hpos x (List.mem_cons_of_mem _ hx))
    rw [totalFieldLength_cons, List.length_cons]; omega

theorem fieldEnd_add_drop (D : List DirectoryEntry) (i : Nat) :
    fieldEnd D i + totalFieldLength (D.drop (i + 1)) = totalFieldLength D := by
  have := List.sum_take_add_sum_drop (D.map DirectoryEntry.field_length) (i + 1)
  simpa only [fieldEnd, totalFieldLength, List.map_take, List.map_drop] using this

theorem fieldEnd_lt_total (D : List DirectoryEntry) (hpos : ∀ e ∈ D, 1 ≤ e.field_length)
    (i : Nat) (h : i + 1 < D.length) : fieldEnd D i < totalFieldLength D := by
  have h1 := fieldEnd_add_drop D i
  have h2 := length_le_totalFieldLength (D.drop (i + 1))
    (fun x hx => hpos x (List.mem_of_mem_drop hx))
  rw [List.length_drop] at h2
  omega

theorem fieldEnd_take (D : List DirectoryEntry) (k i : Nat) (h : i < k) :
    fieldEnd (D.take k) i = fieldEnd D i := by
  simp only [fieldEnd, List.take_take]
  congr 2; omega

/-- The loop on a directory whose first `k` slices fit and are terminated: it reaches entry
`k` with these `k` fields stored. -/
theorem loop_reach (R : Str) (D : List DirectoryEntry) (k : Nat) (m : String)
    (hpos : ∀ e ∈ D, 1 ≤ e.field_length) (hk : k ≤ D.length)
    (hfit : fieldStart D k < R.length)
    (hterm : ∀ i, i < k → R[fieldEnd D i - 1]? = some FIELD_TERMINATOR) :
    ReadFields.loop R D 0 [] m
      = ReadFields.loop R (D.drop k) (fieldStart D k) (fieldsFrom R (D.take k) 0) m := by
  have hrun := loop_prefix_run R (D.take k) (D.drop k) 0 [] m
    (fun x hx => hpos x (List.mem_of_mem_take hx))
    ((terminatedFrom_iff R (D.take k) 0).mpr (by
      intro i hi
      rw [List.length_take] at hi
      have hik : i < k := by omega
      rw [fieldEnd_take D k i hik, Nat.zero_add]
      exact hterm i hik))
    (by simpa [fieldStart] using hfit)
  rw [List.take_append_drop] at hrun
  rw [hrun]
  simp [fieldStart]

end MarcUtil

/-! ## Decimal numbers -/

theorem digitChar_eq (d : Nat) (h : d < 10) : Nat.digitChar d = Char.ofNat (0x30 + d) := by
  interval_cases d <;> rfl

theorem to_string_aux_toDigitsCore (fuel : Nat) :
    ∀ (n : Nat) (acc : Str),
      (to_string_aux fuel n acc).map Char.ofNat
        = Nat.toDigitsCore 10 fuel n (acc.map Char.ofNat) := by
  induction fuel with
  | zero => intro n acc; rfl
  | succ fuel ih =>
    intro n acc
    have hd := digitChar_eq (n % 10) (Nat.mod_lt _ (by decide))
    simp only [to_string_aux, Nat.toDigitsCore]
    split
    · simp [hd]
    · rw [ih]; simp [hd]

/-- The model of `std::to_string` writes a number as Lean does. -/
theorem decimal_eq_repr (n : Nat) : decimal n = Nat.repr n := by
  simp only [decimal, to_string, to_string_aux_toDigitsCore, Nat.repr, Nat.toDigits,
    List.map_nil, List.asString]

theorem parseDecimal_foldl_lt (s : Str) :
    ∀ a : Nat, s.all isDecimalDigit = true →
      s.foldl (fun acc c => 10 * acc + (c - 0x30)) a < (a + 1) * 10 ^ s.length := by
  induction s with
  | nil => intro a _; simp
  | cons c cs ih =>
    intro a hall
    simp only [List.all_cons, Bool.and_eq_true] at hall
    have hc : c - 0x30 ≤ 9 := by
      have := hall.1
      simp only [isDecimalDigit, Bool.and_eq_true, decide_eq_true_eq] at this
      omega
    have h := ih (10 * a + (c - 0x30)) hall.2
    simp only [List.foldl_cons, List.length_cons]
    calc cs.foldl (fun acc c => 10 * acc + (c - 0x30)) (10 * a + (c - 0x30))
        < (10 * a + (c - 0x30) + 1) * 10 ^ cs.length := h
      _ ≤ (10 * (a + 1)) * 10 ^ cs.length := Nat.mul_le_mul_right _ (by omega)
      _ = (a + 1) * 10 ^ (cs.length + 1) := by ring

theorem parseDecimal_lt (s : Str) (n : Nat) (h : parseDecimal s = some n) :
    n < 10 ^ s.length := by
  simp only [parseDecimal] at h
  split at h
  · rename_i hall
    cases h
    simpa using parseDecimal_foldl_lt s 0 hall
  · cases h

/-- What a leader that `ParseLeader` returns is like. -/
theorem ParseLeader_ok (s : Str) (L : Leader) (h : Leader.ParseLeader s = .ok L) :
    s.length = 24 ∧ L.raw_leader = s ∧ L.record_length < 100000
      ∧ L.base_address_of_data < 100000 := by
  simp only [Leader.ParseLeader, Leader.LEADER_LENGTH] at h
  split at h
  · cases h
  · rename_i hlen
    split at h
    · rename_i rl base hrl hbase
      cases h
      have h1 := parseDecimal_lt _ _ hrl
      have h2 := parseDecimal_lt _ _ hbase
      rw [List.length_take] at h1 h2
      rw [List.length_drop] at h2
      have hl : s.length = 24 := by omega
      rw [hl] at h1 h2
      refine ⟨hl, rfl, ?_, ?_⟩
      · simpa using h1
      · simpa using h2
    · cases h

/-! ## `RecordSeemsCorrect` check by check -/

namespace MarcUtil

theorem decimal_twelve : decimal DirectoryEntry.DIRECTORY_ENTRY_LENGTH = "12" := by
  decide

/-- `RecordSeemsCorrect` behind its first six checks. -/
theorem RecordSeemsCorrect_tail (r : Str) (m0 : String) (L : Leader)
    (h24 : 24 ≤ r.length) (hL : Leader.ParseLeader (r.take 24) = .ok L)
    (h3 : L.record_length = r.length) (h4 : r.length ≤ 99999)
    (h5 : 24 < L.base_address_of_data) (h6 : (L.base_address_of_data - 24 - 1) % 12 = 0) :
    RecordSeemsCorrect r m0
      = if r.length < L.base_address_of_data - 1 then .undefined
        else if r[L.base_address_of_data - 1]? ≠ some FIELD_TERMINATOR then
          .ret ⟨false, "directory is not terminated with a field terminator!"⟩
        else if r.getLast? ≠ some RECORD_TERMINATOR then
          .ret ⟨false, "record is not terminated with a record terminator!"⟩
        else .ret ⟨true, m0⟩ := by
  have hne : r ≠ [] := by rintro rfl; simp at h24
  have hsub : substr r 0 Leader.LEADER_LENGTH = some (r.take 24) := by
    rw [substr_of_le r 0 _ (Nat.zero_le _)]; rfl
  have c1 : ¬ r.length < Leader.LEADER_LENGTH := by simp only [Leader.LEADER_LENGTH]; omega
  have c3 : ¬ L.record_length ≠ r.length := by simp [h3]
  have c4 : ¬ r.length > 99999 := by omega
  have c5 : ¬ L.base_address_of_data ≤ Leader.LEADER_LENGTH := by
    simp only [Leader.LEADER_LENGTH]; omega
  have c6 : ¬ (L.base_address_of_data - Leader.LEADER_LENGTH - 1)
      % DirectoryEntry.DIRECTORY_ENTRY_LENGTH ≠ 0 := by
    simp only [Leader.LEADER_LENGTH, DirectoryEntry.DIRECTORY_ENTRY_LENGTH]; simp [h6]
  simp only [RecordSeemsCorrect, if_neg c1, hsub, hL, if_neg c3, if_neg c4, if_neg c5, if_neg c6,
    index_last r hne]
  by_cases hlt : L.base_address_of_data - 1 < r.length
  · rw [index_of_lt r _ hlt, if_neg (by omega), List.getElem?_eq_getElem hlt]
    obtain ⟨c, hc⟩ : ∃ c, r.getLast? = some c := by
      rw [List.getLast?_eq_getElem?]
      exact ⟨r[r.length - 1], List.getElem?_eq_getElem (by omega)⟩
    simp only [hc, ne_eq, Option.some.injEq]
  · by_cases heq : L.base_address_of_data - 1 = r.length
    · have hnone : r[L.base_address_of_data - 1]? = none := by
        rw [List.getElem?_eq_none_iff]; omega
      have hidx : index r (L.base_address_of_data - 1) = some 0 := by
        simp [index, heq]
      rw [hidx, if_neg (by omega), hnone]
      simp [FIELD_TERMINATOR]
    · have hidx : index r (L.base_address_of_data - 1) = none := by
        simp only [index, if_neg hlt, if_neg heq]
      rw [hidx, if_pos (by omega)]

/-- `RecordSeemsCorrect` up to its first six checks. -/
theorem RecordSeemsCorrect_head (r : Str) (m0 : String) :
    (r.length < 24 ∧ RecordSeemsCorrect r m0 = .ret ⟨false, "record too small to contain leader!"⟩)
      ∨ (24 ≤ r.length ∧ ∃ e, Leader.ParseLeader (r.take 24) = .error e
          ∧ RecordSeemsCorrect r m0 = .ret ⟨false, e⟩)
      ∨ (24 ≤ r.length ∧ ∃ L, Leader.ParseLeader (r.take 24) = .ok L
          ∧ ((L.record_length ≠ r.length
                ∧ RecordSeemsCorrect r m0
                    = .ret ⟨false, "leader's record length (" ++ decimal L.record_length
                        ++ ") does not equal actual record length (" ++ decimal r.length
                        ++ ")!"⟩)
              ∨ (L.record_length = r.length ∧ 99999 < r.length
                  ∧ RecordSeemsCorrect r m0
                      = .ret ⟨false, "record length (" ++ decimal r.length
                          ++ ") exceeds maxium legal record length (99999)!"⟩)
              ∨ (L.record_length = r.length ∧ r.length ≤ 99999 ∧ L.base_address_of_data ≤ 24
                  ∧ RecordSeemsCorrect r m0 = .ret ⟨false, "impossible base address of data!"⟩)
              ∨ (L.record_length = r.length ∧ r.length ≤ 99999 ∧ 24 < L.base_address_of_data
                  ∧ (L.base_address_of_data - 24 - 1) % 12 ≠ 0
                  ∧ RecordSeemsCorrect r m0
                      = .ret ⟨false, "directory length is not a multiple of 12!"⟩)
              ∨ (L.record_length = r.length ∧ r.length ≤ 99999 ∧ 24 < L.base_address_of_data
                  ∧ (L.base_address_of_data - 24 - 1) % 12 = 0))) := by
  by_cases h24 : r.length < 24
  · left
    exact ⟨h24, by simp [RecordSeemsCorrect, Leader.LEADER_LENGTH, h24]⟩
  · right
    have hsub : substr r 0 Leader.LEADER_LENGTH = some (r.take 24) := by
      rw [substr_of_le r 0 _ (Nat.zero_le _)]; rfl
    have c1 : ¬ r.length < Leader.LEADER_LENGTH := by simp only [Leader.LEADER_LENGTH]; omega
    cases hL : Leader.ParseLeader (r.take 24) with
    | error e =>
      left
      refine ⟨by omega, e, rfl, ?_⟩
      simp only [RecordSeemsCorrect, if_neg c1, hsub, hL]
    | ok L =>
      right
      refine ⟨by omega, L, rfl, ?_⟩
      by_cases h3 : L.record_length = r.length
      · right
        by_cases h4 : r.length ≤ 99999
        · right
          by_cases h5 : 24 < L.base_address_of_data
          · right
            by_cases h6 : (L.base_address_of_data - 24 - 1) % 12 = 0
            · right; exact ⟨h3, h4, h5, h6⟩
            · left
              refine ⟨h3, h4, h5, h6, ?_⟩
              have c3 : ¬ L.record_length ≠ r.length := by simp [h3]
              have c4 : ¬ r.length > 99999 := by omega
              have c5 : ¬ L.base_address_of_data ≤ Leader.LEADER_LENGTH := by
                simp only [Leader.LEADER_LENGTH]; omega
              have c6 : (L.base_address_of_data - Leader.LEADER_LENGTH - 1)
                  % DirectoryEntry.DIRECTORY_ENTRY_LENGTH ≠ 0 := h6
              simp only [RecordSeemsCorrect, if_neg c1, hsub, hL, if_neg c3, if_neg c4, if_neg c5,
                if_pos c6, decimal_twelve]
              rfl
          · left
            refine ⟨h3, h4, by omega, ?_⟩
            have c3 : ¬ L.record_length ≠ r.length := by simp [h3]
            have c4 : ¬ r.length > 99999 := by omega
            have c5 : L.base_address_of_data ≤ Leader.LEADER_LENGTH := by
              simp only [Leader.LEADER_LENGTH]; omega
            simp only [RecordSeemsCorrect, if_neg c1, hsub, hL, if_neg c3, if_neg c4, if_pos c5]
        · left
          refine ⟨h3, by omega, ?_⟩
          have c3 : ¬ L.record_length ≠ r.length := by simp [h3]
          have c4 : r.length > 99999 := by omega
          simp only [RecordSeemsCorrect, if_neg c1, hsub, hL, if_neg c3, if_pos c4]
      · left
        refine ⟨h3, ?_⟩
        simp only [RecordSeemsCorrect, if_neg c1, hsub, hL, if_pos h3]

end MarcUtil

/-! ## `ReadNextRecord` step by step -/

namespace MarcUtil

/-- A failure of the loop of `ReadFields` carries a message. -/
theorem loop_failure_message (R : Str) (D : List DirectoryEntry) :
    ∀ (s : Nat) (acc : List Str) (m : String) (res : FieldsResult),
      ReadFields.loop R D s acc m = .ret res → res.ok = false → res.err_msg ≠ "" := by
  induction D with
  | nil =>
    intro s acc m res h hok
    simp only [ReadFields.loop] at h
    split at h
    · cases h; simp
    · cases h; simp at hok
  | cons e es ih =>
    intro s acc m res h hok
    by_cases hover : R.length ≤ s + e.field_length
    · rw [loop_cons_overrun R e es s acc m hover] at h; cases h; simp
    · by_cases h0 : e.field_length = 0
      · rw [loop_cons_zero R e es s acc m h0 (by omega)] at h; cases h
      · rw [loop_cons_step R e es s acc m (by omega) (by omega)] at h
        split at h
        · cases h; simp
        · exact ih _ _ _ _ h hok

/-- A failure of `ReadFields` carries a message. -/
theorem ReadFields_failure_message (R : Str) (D : List DirectoryEntry) (f0 : List Str)
    (m0 : String) (res : FieldsResult) (h : ReadFields R D f0 m0 = .ret res)
    (hok : res.ok = false) : res.err_msg ≠ "" := by
  by_cases hne : R = []
  · subst hne; rw [ReadFields_nil_blob] at h; cases h
  · by_cases hl : R.getLast? = some RECORD_TERMINATOR
    · rw [ReadFields_of_last R D f0 m0 hl] at h
      exact loop_failure_message R D 0 [] m0 res h hok
    · rw [ReadFields_of_not_last R D f0 m0 hne hl] at h; cases h; simp

theorem ParseDirEntries_error_message (s : Str) (e : String)
    (h : DirectoryEntry.ParseDirEntries s = .error e) : e ≠ "" := by
  simp only [DirectoryEntry.ParseDirEntries] at h
  split at h
  · cases h; simp
  · split at h
    · cases h; simp
    · split at h
      · cases h
      · cases h; simp

theorem ParseLeader_error_message (s : Str) (e : String)
    (h : Leader.ParseLeader s = .error e) : e ≠ "" := by
  simp only [Leader.ParseLeader] at h
  split at h
  · cases h; simp
  · split at h
    · cases h
    · cases h; simp

theorem append_ne_empty (a b : String) (h : a ≠ "") : a ++ b ≠ "" := by
  intro hab
  apply h
  have hd := congrArg String.data hab
  rw [String.data_append] at hd
  have ha : a.data = [] := (List.append_eq_nil.mp hd).1
  exact String.ext ha

theorem ReadNextRecord_short (input : Str) (leader : Option Leader) (h : input.length < 24) :
    ReadNextRecord input leader
      = .ret ⟨false, [], leader, [], [],
          if input.length ≠ 0 then "Short read for a leader or premature EOF!" else ""⟩ := by
  have hlen : (input.take 24).length = input.length := by
    rw [List.length_take]; omega
  have hdrop : input.drop 24 = [] := List.drop_of_length_le (by omega)
  have hne : input.length ≠ Leader.LEADER_LENGTH := by simp only [Leader.LEADER_LENGTH]; omega
  simp only [ReadNextRecord, fread, Leader.LEADER_LENGTH] at hne ⊢
  simp only [hlen, hdrop, if_pos hne]

/-- What a return of `ReadNextRecord` behind a complete leader says: a failure carries a
message, and a success went through the leader, the directory and the field data. -/
theorem ReadNextRecord_ret_inv (input : Str) (leader : Option Leader) (res : RecordResult)
    (h24 : 24 ≤ input.length) (h : ReadNextRecord input leader = .ret res) :
    (res.ok = false ∧ res.err_msg ≠ "")
      ∨ (res.ok = true ∧ ∃ L D,
          Leader.ParseLeader (input.take 24) = .ok L ∧ res.leader = some L
            ∧ 24 ≤ L.base_address_of_data
            ∧ L.base_address_of_data - 24 ≤ (input.drop 24).length
            ∧ DirectoryEntry.ParseDirEntries ((input.drop 24).take (L.base_address_of_data - 24))
                = .ok D
            ∧ res.dir_entries = D
            ∧ size_t_sub (size_t_sub L.record_length 24) (L.base_address_of_data - 24) ≤ SSIZE_MAX
            ∧ size_t_sub (size_t_sub L.record_length 24) (L.base_address_of_data - 24)
                ≤ ((input.drop 24).drop (L.base_address_of_data - 24)).length
            ∧ res.input
                = ((input.drop 24).drop (L.base_address_of_data - 24)).drop
                    (size_t_sub (size_t_sub L.record_length 24) (L.base_address_of_data - 24))
            ∧ ReadFields
                (((input.drop 24).drop (L.base_address_of_data - 24)).take
                  (size_t_sub (size_t_sub L.record_length 24) (L.base_address_of_data - 24)))
                D [] "" = .ret ⟨true, res.field_data, res.err_msg⟩) := by
  have hlen : (input.take 24).length = 24 := by
    rw [List.length_take]; omega
  simp only [ReadNextRecord, fread, Leader.LEADER_LENGTH, hlen] at h
  rw [if_neg (by simp)] at h
  split at h
  · rename_i e hL
    cases h
    exact Or.inl ⟨rfl, ParseLeader_error_message _ e hL⟩
  · rename_i L hL
    split at h
    · cases h
    · rename_i hbase
      split at h
      · cases h
        exact Or.inl ⟨rfl, by simp⟩
      · rename_i hdl
        split at h
        · rename_i e hD
          cases h
          exact Or.inl ⟨rfl, ParseDirEntries_error_message _ e hD⟩
        · rename_i D hD
          split at h
          · cases h
          · rename_i hmax
            split at h
            · cases h
              refine Or.inl ⟨rfl, ?_⟩
              simp only [String.append_assoc]
              exact append_ne_empty _ _ (by simp)
            · rename_i hfd
              split at h
              · cases h
              · cases h
              · rename_i r hr
                cases h
                cases hok : r.ok with
                | false => exact Or.inl ⟨rfl, ReadFields_failure_message _ _ _ _ r hr hok⟩
                | true =>
                  refine Or.inr ⟨rfl, L, D, hL, rfl, by omega, ?_, hD, rfl, by omega, ?_, rfl, ?_⟩
                  · rw [List.length_take] at hdl; omega
                  · rw [List.length_take] at hfd; omega
                  · rw [hr]
                    cases r
                    simp only at hok
                    simp only [hok]

end MarcUtil

/-! ## `ReadFields` on composed field data -/

namespace MarcUtil

/-- The loop of `ReadFields` on the field data written for the fields `F`, behind the bytes
`pre`: it stores `F`. -/
theorem loop_composed (F : List Str) :
    ∀ (D : List DirectoryEntry) (pre : Str) (acc : List Str) (m : String),
      D.map DirectoryEntry.field_length = F.map (fun field => field.length + 1) →
      ReadFields.loop
          (pre ++ (F.flatMap (fun field => field ++ [FIELD_TERMINATOR]) ++ [RECORD_TERMINATOR]))
          D pre.length acc m
        = .ret ⟨true, acc ++ F, m⟩ := by
  induction F with
  | nil =>
    intro D pre acc m h
    have hD : D = [] := by simpa using h
    subst hD
    simp [ReadFields.loop]
  | cons f fs ih =>
    intro D pre acc m h
    cases D with
    | nil => simp at h
    | cons e es =>
      simp only [List.map_cons, List.cons.injEq] at h
      obtain ⟨he, hes⟩ := h
      have hR : pre ++ ((f :: fs).flatMap (fun field => field ++ [FIELD_TERMINATOR])
          ++ [RECORD_TERMINATOR])
          = (pre ++ (f ++ [FIELD_TERMINATOR]))
            ++ (fs.flatMap (fun field => field ++ [FIELD_TERMINATOR]) ++ [RECORD_TERMINATOR]) := by
        simp
      have hR2 : (pre ++ (f ++ [FIELD_TERMINATOR]))
            ++ (fs.flatMap (fun field => field ++ [FIELD_TERMINATOR]) ++ [RECORD_TERMINATOR])
          = (pre ++ f) ++ (FIELD_TERMINATOR
              :: (fs.flatMap (fun field => field ++ [FIELD_TERMINATOR]) ++ [RECORD_TERMINATOR])) := by
        simp
      have hR3 : (pre ++ (f ++ [FIELD_TERMINATOR]))
            ++ (fs.flatMap (fun field => field ++ [FIELD_TERMINATOR]) ++ [RECORD_TERMINATOR])
          = pre ++ (f ++ (FIELD_TERMINATOR
              :: (fs.flatMap (fun field => field ++ [FIELD_TERMINATOR]) ++ [RECORD_TERMINATOR]))) := by
        simp
      have hlen : pre.length + e.field_length = (pre ++ (f ++ [FIELD_TERMINATOR])).length := by
        simp [he]
      have hidx : pre.length + e.field_length - 1 = (pre ++ f).length := by
        simp [he]
      have hfl : e.field_length - 1 = f.length := by omega
      rw [hR, loop_cons_step _ e es pre.length acc m (by omega) (by simp [he])]
      have hterm : ((pre ++ (f ++ [FIELD_TERMINATOR]))
            ++ (fs.flatMap (fun field => field ++ [FIELD_TERMINATOR])
              ++ [RECORD_TERMINATOR]))[pre.length + e.field_length - 1]?
          = some FIELD_TERMINATOR := by
        rw [hidx, hR2, List.getElem?_append_right (Nat.le_refl _), Nat.sub_self]
        simp
      have hslice : (((pre ++ (f ++ [FIELD_TERMINATOR]))
            ++ (fs.flatMap (fun field => field ++ [FIELD_TERMINATOR])
              ++ [RECORD_TERMINATOR])).drop pre.length).take (e.field_length - 1) = f := by
        rw [hR3, List.drop_left, hfl, List.take_left]
      rw [if_neg (fun hn => hn hterm), hslice, hlen,
        ih es (pre ++ (f ++ [FIELD_TERMINATOR])) (acc ++ [f]) m hes]
      simp

/-- The loop of `ReadFields` returns when it starts inside the blob and no field length is
zero. -/
theorem loop_returns (R : Str) (D : List DirectoryEntry) :
    ∀ (s : Nat) (acc : List Str) (m : String),
      (∀ e ∈ D, 1 ≤ e.field_length) → s < R.length →
      ∃ res, ReadFields.loop R D s acc m = .ret res := by
  induction D with
  | nil =>
    intro s acc m _ _
    simp only [ReadFields.loop]
    split
    · exact ⟨_, rfl⟩
    · exact ⟨_, rfl⟩
  | cons e es ih =>
    intro s acc m hpos hs
    by_cases hover : R.length ≤ s + e.field_length
    · exact ⟨_, loop_cons_overrun R e es s acc m hover⟩
    · rw [loop_cons_step R e es s acc m (hpos e (List.mem_cons_self _ _)) (by omega)]
      split
      · exact ⟨_, rfl⟩
      · exact ih _ _ _ (fun x hx => hpos x (List.mem_cons_of_mem _ hx)) (by omega)

end MarcUtil

/-! ## The loop of `Split` -/

namespace StringUtil

theorem find_go_none (c : Nat) (xs : Str) :
    ∀ i : Nat, find.go c xs i = none ↔ c ∉ xs := by
  induction xs with
  | nil => intro i; simp [find.go]
  | cons x xs ih =>
    intro i
    simp only [find.go]
    split
    · rename_i hx; simp [hx]
    · rename_i hx
      rw [ih]
      simp only [List.mem_cons, not_or]
      exact ⟨fun h => ⟨fun hc => hx hc.symm, h⟩, fun h => h.2⟩

theorem find_go_some (c : Nat) (xs : Str) :
    ∀ i p : Nat, find.go c xs i = some p →
      ∃ u v, xs = u ++ c :: v ∧ c ∉ u ∧ p = i + u.length := by
  induction xs with
  | nil => intro i p h; simp [find.go] at h
  | cons x xs ih =>
    intro i p h
    simp only [find.go] at h
    split at h
    · rename_i hx
      cases h
      exact ⟨[], xs, by simp [hx], by simp, by simp⟩
    · rename_i hx
      obtain ⟨u, v, hxs, hu, hp⟩ := ih _ _ h
      refine ⟨x :: u, v, by simp [hxs], ?_, by simp [hp]; omega⟩
      simp only [List.mem_cons, not_or]
      exact ⟨fun hc => hx hc.symm, hu⟩

theorem Split_loop_none (s : Str) (d : Nat) (fuel start : Nat) (acc : List Str) :
    Split.loop s d fuel start none acc = some (.ret (start, acc)) := by
  cases fuel <;> rfl

/-- The loop of `Split` from `start_pos` on: it ends within `fuel` iterations, behind the
last delimiter, with one piece stored for every delimiter it passed. -/
theorem Split_loop_spec (s : Str) (d : Nat) (fuel : Nat) :
    ∀ (start : Nat) (acc : List Str),
      (s.drop start).length ≤ fuel → start ≤ s.length →
      ∃ (stop : Nat) (ps : List Str),
        Split.loop s d fuel start (find s d start) acc = some (.ret (stop, acc ++ ps))
          ∧ stop ≤ s.length ∧ d ∉ s.drop stop ∧ (∀ p ∈ ps, d ∉ p)
          ∧ ps.flatMap (fun p => p ++ [d]) ++ s.drop stop = s.drop start
          ∧ ps.length = (s.drop start).count d := by
  induction fuel with
  | zero =>
    intro start acc hfuel hstart
    have hnil : s.drop start = [] := List.length_eq_zero.mp (by omega)
    have hfind : find s d start = none := by simp [find, hnil, find.go]
    rw [hfind, Split_loop_none]
    exact ⟨start, [], by simp, hstart, by simp [hnil], by simp, by simp, by simp [hnil]⟩
  | succ fuel ih =>
    intro start acc hfuel hstart
    cases hfind : find s d start with
    | none =>
      rw [Split_loop_none]
      have hnot : d ∉ s.drop start := (find_go_none d _ start).mp hfind
      exact ⟨start, [], by simp, hstart, hnot, by simp, by simp,
        by simp [List.count_eq_zero_of_not_mem hnot]⟩
    | some p =>
      obtain ⟨u, v, hsplit, hu, hp⟩ := find_go_some d _ start p hfind
      have hlen0 : (s.drop start).length = u.length + (v.length + 1) := by
        rw [hsplit]; simp
      have hlen := hlen0
      rw [List.length_drop] at hlen
      have hv : s.drop (p + 1) = v := by
        have : s.drop (p + 1) = (s.drop start).drop (u.length + 1) := by
          rw [List.drop_drop]; congr 1; omega
        rw [this, hsplit, List.drop_append 1]
        rfl
      have hpiece : substr s start (p - start) = some u := by
        rw [substr_of_le s start _ hstart, hsplit]
        have : p - start = u.length := by omega
        rw [this, List.take_left]
      obtain ⟨stop, ps, hloop, hstop, hnot, hps, hflat, hcount⟩ :=
        ih (p + 1) (acc ++ [u]) (by rw [hv]; omega) (by omega)
      refine ⟨stop, u :: ps, ?_, hstop, hnot, ?_, ?_, ?_⟩
      · simp only [Split.loop, hpiece, hloop, List.append_assoc, List.singleton_append]
      · intro q hq
        rcases List.mem_cons.mp hq with rfl | hq
        · exact hu
        · exact hps q hq
      · rw [List.flatMap_cons, List.append_assoc, hflat, hv, hsplit]
        simp
      · rw [List.length_cons, hcount, hv, hsplit, List.count_append,
          List.count_eq_zero_of_not_mem hu, List.count_cons_self]
        omega

theorem intercalate_snoc (d : Nat) (ps : List Str) (l : Str) :
    [d].intercalate (ps ++ [l]) = ps.flatMap (fun p => p ++ [d]) ++ l := by
  induction ps with
  | nil => simp [List.intercalate]
  | cons p ps ih =>
    cases ps with
    | nil => simp [List.intercalate]
    | cons q qs =>
      simp only [List.intercalate, List.cons_append, List.intersperse_cons₂, List.flatten_cons,
        List.flatMap_cons] at ih ⊢
      rw [ih]
      simp

end StringUtil

/-! ## Numbers written and read back -/

/-- The digits `std::to_string` writes: they are decimal digits, their value is `n`, and
they are no more than fit a number below `10 ^ w`. -/
theorem to_string_aux_spec (fuel : Nat) :
    ∀ (n : Nat) (acc : Str), n < fuel →
      ∃ ds : Str, to_string_aux fuel n acc = ds ++ acc
        ∧ ds.all isDecimalDigit = true
        ∧ (∀ a, ds.foldl (fun acc c => 10 * acc + (c - 0x30)) a = a * 10 ^ ds.length + n)
        ∧ (∀ w, 1 ≤ w → n < 10 ^ w → ds.length ≤ w) := by
  induction fuel with
  | zero => intro n acc h; omega
  | succ fuel ih =>
    intro n acc hn
    simp only [to_string_aux]
    split
    · rename_i hsmall
      have hlt : n < 10 := by omega
      refine ⟨[0x30 + n % 10], rfl, ?_, ?_, ?_⟩
      · simp [isDecimalDigit]; omega
      · intro a
        simp only [List.foldl_cons, List.foldl_nil, List.length_singleton, pow_one]
        omega
      · intro w hw _
        simpa using hw
    · rename_i hbig
      have hge : 10 ≤ n := by omega
      obtain ⟨ds, hds, hall, hval, hwidth⟩ := ih (n / 10) ((0x30 + n % 10) :: acc) (by omega)
      refine ⟨ds ++ [0x30 + n % 10], by rw [hds]; simp, ?_, ?_, ?_⟩
      · rw [List.all_append, hall]
        simp [isDecimalDigit]; omega
      · intro a
        rw [List.foldl_append, hval a]
        simp only [List.foldl_cons, List.foldl_nil, List.length_append, List.length_singleton,
          pow_succ]
        have hdm := Nat.div_add_mod n 10
        have hsub : 0x30 + n % 10 - 0x30 = n % 10 := by omega
        rw [hsub]
        nlinarith [hdm]
      · intro w hw hnw
        have hw2 : 2 ≤ w := by
          by_contra hlt
          have hw1 : w = 1 := by omega
          rw [hw1] at hnw
          omega
        have hdiv : n / 10 < 10 ^ (w - 1) := by
          apply Nat.div_lt_of_lt_mul
          have hp : 10 ^ w = 10 * 10 ^ (w - 1) := by
            rw [← pow_succ']; congr 1; omega
          omega
        have := hwidth (w - 1) (by omega) hdiv
        rw [List.length_append, List.length_singleton]
        omega

theorem foldl_replicate_zero (k : Nat) :
    (List.replicate k 0x30).foldl (fun acc c => 10 * acc + (c - 0x30)) 0 = 0 := by
  induction k with
  | zero => rfl
  | succ k ih => simpa [List.replicate_succ] using ih

/-- A number below `10 ^ w`, written by `std::to_string` and padded with zeros to the width
`w`, takes exactly `w` bytes and decodes to the number. -/
theorem parseDecimal_pad (n w : Nat) (hw : 1 ≤ w) (h : n < 10 ^ w) :
    (StringUtil.PadLeading (to_string n) w 0x30).length = w
      ∧ parseDecimal (StringUtil.PadLeading (to_string n) w 0x30) = some n := by
  obtain ⟨ds, hds, hall, hval, hwidth⟩ := to_string_aux_spec (n + 1) n [] (by omega)
  rw [List.append_nil] at hds
  have hlen := hwidth w hw h
  have hts : to_string n = ds := hds
  simp only [StringUtil.PadLeading, hts]
  by_cases hge : ds.length ≥ w
  · rw [if_pos hge]
    refine ⟨by omega, ?_⟩
    simp only [parseDecimal, hall, if_true]
    rw [hval 0]; simp
  · rw [if_neg hge]
    refine ⟨by rw [List.length_append, List.length_replicate]; omega, ?_⟩
    have hall2 : (List.replicate (w - ds.length) 0x30 ++ ds).all isDecimalDigit = true := by
      rw [List.all_append, hall]
      simp [isDecimalDigit]
    simp only [parseDecimal, hall2, if_true]
    rw [List.foldl_append, foldl_replicate_zero, hval 0]; simp

/-- A leader of 24 retained bytes whose two numbers fit 5 digits is written on 24 bytes, and
these parse back to the two numbers. -/
theorem Leader_toString_spec (L : Leader) (hraw : L.raw_leader.length = 24)
    (hrl : L.record_length < 100000) (hb : L.base_address_of_data < 100000) :
    L.toString.length = 24
      ∧ Leader.ParseLeader L.toString
          = .ok ⟨L.record_length, L.base_address_of_data, L.toString⟩ := by
  obtain ⟨hl1, hp1⟩ := parseDecimal_pad L.record_length 5 (by omega) (by simpa using hrl)
  obtain ⟨hl2, hp2⟩ := parseDecimal_pad L.base_address_of_data 5 (by omega) (by simpa using hb)
  have hB : ((L.raw_leader.drop 5).take 7).length = 7 := by
    rw [List.length_take, List.length_drop]; omega
  have hD : ((L.raw_leader.drop 17).take 7).length = 7 := by
    rw [List.length_take, List.length_drop]; omega
  have hlen : L.toString.length = 24 := by
    simp only [Leader.toString, List.length_append, hl1, hl2, hB, hD]
  have htake : L.toString.take 5
      = StringUtil.PadLeading (to_string L.record_length) 5 0x30 := by
    simp only [Leader.toString, List.append_assoc]
    rw [List.take_append_of_le_length (by omega), List.take_of_length_le (by omega)]
  have hmid : (L.toString.drop 12).take 5
      = StringUtil.PadLeading (to_string L.base_address_of_data) 5 0x30 := by
    have h12 : (StringUtil.PadLeading (to_string L.record_length) 5 0x30
        ++ (L.raw_leader.drop 5).take 7).length = 12 := by
      rw [List.length_append, hl1, hB]
    simp only [Leader.toString, List.append_assoc]
    rw [← List.append_assoc, ← h12, List.drop_left,
      List.take_append_of_le_length (by omega), List.take_of_length_le (by omega)]
  refine ⟨hlen, ?_⟩
  simp only [Leader.ParseLeader, Leader.LEADER_LENGTH, hlen, htake, hmid, hp1, hp2]
  simp

theorem PadLeading_length_ge (s : Str) (w c : Nat) :
    w ≤ (StringUtil.PadLeading s w c).length := by
  simp only [StringUtil.PadLeading]
  split
  · assumption
  · rw [List.length_append, List.length_replicate]; omega

/-- A decimal subfield of fixed width takes exactly its width. -/
theorem fixedDecimal_length (n w : Nat) : (DirectoryEntry.fixedDecimal n w).length = w := by
  have h := PadLeading_length_ge (to_string n) w 0x30
  simp only [DirectoryEntry.fixedDecimal, List.length_drop]
  omega

/-- A number that fits the width is written with leading zeros. -/
theorem fixedDecimal_of_lt (n w : Nat) (hw : 1 ≤ w) (h : n < 10 ^ w) :
    DirectoryEntry.fixedDecimal n w = StringUtil.PadLeading (to_string n) w 0x30 := by
  obtain ⟨hl, _⟩ := parseDecimal_pad n w hw h
  simp only [DirectoryEntry.fixedDecimal, hl, Nat.sub_self, List.drop_zero]

/-- A directory entry with a tag of 3 bytes is written on 12 bytes. -/
theorem DirectoryEntry_toString_length (e : DirectoryEntry) (htag : e.tag.length = 3) :
    e.toString.length = 12 := by
  simp only [DirectoryEntry.toString, List.length_append, htag, fixedDecimal_length]

theorem directory_toString_length (D : List DirectoryEntry)
    (htag : ∀ e ∈ D, e.tag.length = 3) :
    (D.flatMap DirectoryEntry.toString).length = 12 * D.length := by
  induction D with
  | nil => rfl
  | cons e es ih =>
    have he := DirectoryEntry_toString_length e (htag e (List.mem_cons_self _ _))
    have hes := ih (fun x hx => htag x (List.mem_cons_of_mem _ hx))
    rw [List.flatMap_cons, List.length_append, he, hes, List.length_cons]
    omega

theorem field_data_length (F : List Str) :
    (F.flatMap (fun field => field ++ [FIELD_TERMINATOR])).length
      = (F.map (fun field => field.length + 1)).sum := by
  induction F with
  | nil => rfl
  | cons f fs ih =>
    rw [List.flatMap_cons, List.length_append, ih]
    simp

/-! ## The record `ComposeRecord` writes, as `RecordSeemsCorrect` sees it -/

namespace MarcUtil

/-- A record whose length its own leader gives has fewer than 100000 bytes. -/
theorem record_length_lt (r : Str) (L : Leader)
    (hL : Leader.ParseLeader (r.take 24) = .ok L) (h3 : L.record_length = r.length) :
    r.length < 100000 := by
  obtain ⟨_, _, hrl, _⟩ := ParseLeader_ok _ _ hL
  omega

/-- The leader `ComposeRecord` leaves behind. -/
theorem ComposeRecord_leader (D : List DirectoryEntry) (F : List Str) (leader : Leader) :
    (ComposeRecord D F leader).2
      = ⟨24 + 12 * D.length + 1 + totalFieldLength D + 1, 24 + 12 * D.length + 1,
          leader.raw_leader⟩ := by
  simp only [ComposeRecord, Leader.setRecordLength, Leader.setBaseAddressOfData,
    ComposeRecord_record_size, Leader.LEADER_LENGTH, DirectoryEntry.DIRECTORY_ENTRY_LENGTH]
  congr 1 <;> omega

/-- `RecordSeemsCorrect` on a record whose leader gives another length than the record has. -/
theorem RecordSeemsCorrect_of_length_ne (r : Str) (m0 : String) (L : Leader)
    (h24 : 24 ≤ r.length) (hL : Leader.ParseLeader (r.take 24) = .ok L)
    (hne : L.record_length ≠ r.length) :
    RecordSeemsCorrect r m0
      = .ret ⟨false, "leader's record length (" ++ decimal L.record_length
          ++ ") does not equal actual record length (" ++ decimal r.length ++ ")!"⟩ := by
  have hsub : substr r 0 Leader.LEADER_LENGTH = some (r.take 24) := by
    rw [substr_of_le r 0 _ (Nat.zero_le _)]; rfl
  have c1 : ¬ r.length < Leader.LEADER_LENGTH := by simp only [Leader.LEADER_LENGTH]; omega
  simp only [RecordSeemsCorrect, if_neg c1, hsub, hL, if_pos hne]

/-- The record `ComposeRecord` writes from a leader of 24 retained bytes, when the record
size it computes fits 5 digits: its first 24 bytes parse to the leader left behind, and its
length is that of its five parts. -/
theorem composed_record_shape (D : List DirectoryEntry) (F : List Str) (leader : Leader)
    (hraw : leader.raw_leader.length = 24)
    (hsize : 24 + 12 * D.length + 1 + totalFieldLength D + 1 ≤ 99999) :
    (ComposeRecord D F leader).2.toString.length = 24
      ∧ (ComposeRecord D F leader).1.take 24 = (ComposeRecord D F leader).2.toString
      ∧ Leader.ParseLeader ((ComposeRecord D F leader).1.take 24)
          = .ok ⟨24 + 12 * D.length + 1 + totalFieldLength D + 1, 24 + 12 * D.length + 1,
              (ComposeRecord D F leader).2.toString⟩
      ∧ (ComposeRecord D F leader).1.length
          = 24 + (D.flatMap DirectoryEntry.toString).length + 1
              + (F.map (fun field => field.length + 1)).sum + 1 := by
  have hlead := ComposeRecord_leader D F leader
  obtain ⟨hlen, hparse⟩ := Leader_toString_spec (ComposeRecord D F leader).2
    (by rw [hlead]; exact hraw) (by rw [hlead]; simp only; omega)
    (by rw [hlead]; simp only; omega)
  have htake : (ComposeRecord D F leader).1.take 24 = (ComposeRecord D F leader).2.toString := by
    rw [ComposeRecord_record]
    simp only [List.append_assoc]
    rw [← hlen, List.take_left]
  refine ⟨hlen, htake, ?_, ?_⟩
  · rw [htake, hparse, hlead]
  · rw [ComposeRecord_record]
    simp only [List.length_append, hlen, field_data_length, List.length_singleton]

end MarcUtil

/-! ## Decoding what the serializers write -/

theorem to_string_digits (n : Nat) : (to_string n).all isDecimalDigit = true := by
  obtain ⟨ds, h, hd, _, _⟩ := to_string_aux_spec (n + 1) n [] (by omega)
  simp only [to_string]
  rw [h, List.append_nil]
  exact hd

theorem fixedDecimal_digits (n w : Nat) :
    (DirectoryEntry.fixedDecimal n w).all isDecimalDigit = true := by
  rw [List.all_eq_true]
  intro c hc
  simp only [DirectoryEntry.fixedDecimal] at hc
  have hc := List.mem_of_mem_drop hc
  simp only [StringUtil.PadLeading] at hc
  have hd := to_string_digits n
  rw [List.all_eq_true] at hd
  split at hc
  · exact hd c hc
  · rcases List.mem_append.mp hc with h | h
    · rw [List.eq_of_mem_replicate h]; decide
    · exact hd c h

theorem parseDecimal_fixedDecimal (n w : Nat) :
    ∃ m, parseDecimal (DirectoryEntry.fixedDecimal n w) = some m
      ∧ (1 ≤ w → n < 10 ^ w → m = n) := by
  by_cases h : 1 ≤ w ∧ n < 10 ^ w
  · refine ⟨n, ?_, fun _ _ => rfl⟩
    rw [fixedDecimal_of_lt n w h.1 h.2]
    exact (parseDecimal_pad n w h.1 h.2).2
  · refine ⟨(DirectoryEntry.fixedDecimal n w).foldl (fun acc c => 10 * acc + (c - 0x30)) 0, ?_,
      fun h1 h2 => absurd ⟨h1, h2⟩ h⟩
    simp only [parseDecimal, fixedDecimal_digits, if_true]

theorem parseEntry_toString (e : DirectoryEntry) (htag : e.tag.length = 3)
    (hfl : e.field_length ≤ 9999) :
    ∃ off, DirectoryEntry.parseEntry e.toString = some ⟨e.tag, e.field_length, off⟩
      ∧ (e.field_offset ≤ 99999 → off = e.field_offset) := by
  obtain ⟨m4, h4, hm4⟩ := parseDecimal_fixedDecimal e.field_length 4
  obtain ⟨m5, h5, hm5⟩ := parseDecimal_fixedDecimal e.field_offset 5
  have hm4 := hm4 (by omega) (by omega)
  subst hm4
  have hl4 := fixedDecimal_length e.field_length 4
  have hl5 := fixedDecimal_length e.field_offset 5
  have e1 : e.toString.take 3 = e.tag := by
    simp only [DirectoryEntry.toString, List.append_assoc]
    rw [← htag, List.take_left]
  have e2 : (e.toString.drop 3).take 4 = DirectoryEntry.fixedDecimal e.field_length 4 := by
    simp only [DirectoryEntry.toString, List.append_assoc]
    rw [← htag, List.drop_left]
    exact List.take_left' hl4
  have e3 : (e.toString.drop 7).take 5 = DirectoryEntry.fixedDecimal e.field_offset 5 := by
    have h7 : (e.tag ++ DirectoryEntry.fixedDecimal e.field_length 4).length = 7 := by
      rw [List.length_append, htag, hl4]
    simp only [DirectoryEntry.toString]
    rw [← h7, List.drop_left, List.take_of_length_le (by omega)]
  refine ⟨m5, ?_, fun h => hm5 (by omega) (by omega)⟩
  simp only [DirectoryEntry.parseEntry, e1, e2, e3, h4, h5]

theorem parseSlots_toString :
    ∀ (D : List DirectoryEntry) (rest : Str),
      (∀ e ∈ D, e.tag.length = 3) → (∀ e ∈ D, e.field_length ≤ 9999) →
      ∃ D', DirectoryEntry.parseSlots D.length (D.flatMap DirectoryEntry.toString ++ rest)
            = some D'
        ∧ D'.map DirectoryEntry.tag = D.map DirectoryEntry.tag
        ∧ D'.map DirectoryEntry.field_length = D.map DirectoryEntry.field_length
        ∧ ((∀ e ∈ D, e.field_offset ≤ 99999) → D' = D) := by
  intro D
  induction D with
  | nil => intro rest _ _; exact ⟨[], rfl, rfl, rfl, fun _ => rfl⟩
  | cons e D ih =>
    intro rest htag hfl
    obtain ⟨off, he, hoff⟩ := parseEntry_toString e (htag e (List.mem_cons_self _ _))
      (hfl e (List.mem_cons_self _ _))
    obtain ⟨D', hD', ht, hl, ho⟩ := ih rest (fun x hx => htag x (List.mem_cons_of_mem _ hx))
      (fun x hx => hfl x (List.mem_cons_of_mem _ hx))
    have h12 := DirectoryEntry_toString_length e (htag e (List.mem_cons_self _ _))
    have ht12 : (e.toString ++ (D.flatMap DirectoryEntry.toString ++ rest)).take 12
        = e.toString := by
      rw [← h12, List.take_left]
    have hd12 : (e.toString ++ (D.flatMap DirectoryEntry.toString ++ rest)).drop 12
        = D.flatMap DirectoryEntry.toString ++ rest := by
      rw [← h12, List.drop_left]
    refine ⟨⟨e.tag, e.field_length, off⟩ :: D', ?_, ?_, ?_, ?_⟩
    · simp only [List.length_cons, List.flatMap_cons, List.append_assoc,
        DirectoryEntry.parseSlots, DirectoryEntry.DIRECTORY_ENTRY_LENGTH, ht12, hd12, he, hD']
    · simp only [List.map_cons, ht]
    · simp only [List.map_cons, hl]
    · intro hall
      rw [ho (fun x hx => hall x (List.mem_cons_of_mem _ hx)),
        hoff (hall e (List.mem_cons_self _ _))]

theorem ParseDirEntries_toString (D : List DirectoryEntry)
    (htag : ∀ e ∈ D, e.tag.length = 3) (hfl : ∀ e ∈ D, e.field_length ≤ 9999) :
    ∃ D', DirectoryEntry.ParseDirEntries
            (D.flatMap DirectoryEntry.toString ++ [FIELD_TERMINATOR]) = .ok D'
        ∧ D'.map DirectoryEntry.tag = D.map DirectoryEntry.tag
        ∧ D'.map DirectoryEntry.field_length = D.map DirectoryEntry.field_length
        ∧ ((∀ e ∈ D, e.field_offset ≤ 99999) → D' = D) := by
  obtain ⟨D', hD', h⟩ := parseSlots_toString D [FIELD_TERMINATOR] htag hfl
  refine ⟨D', ?_, h⟩
  have hlen : (D.flatMap DirectoryEntry.toString ++ [FIELD_TERMINATOR]).length
      = 12 * D.length + 1 := by
    rw [List.length_append, directory_toString_length D htag, List.length_singleton]
  have hmod : (12 * D.length + 1) % 12 = 1 := by omega
  have hdiv : (12 * D.length + 1) / 12 = D.length := by omega
  have hlast : (D.flatMap DirectoryEntry.toString ++ [FIELD_TERMINATOR]).getLast?
      = some FIELD_TERMINATOR := by
    rw [List.getLast?_eq_some_iff]; exact ⟨_, rfl⟩
  simp only [DirectoryEntry.ParseDirEntries, DirectoryEntry.DIRECTORY_ENTRY_LENGTH, hlen, hmod,
    hdiv, hlast, ne_eq, not_true_eq_false, if_false, hD']

namespace MarcUtil

theorem ReadNextRecord_of_parts (input : Str) (leader : Option Leader) (L : Leader)
    (D : List DirectoryEntry) (r : FieldsResult)
    (h24 : 24 ≤ input.length)
    (hL : Leader.ParseLeader (input.take 24) = .ok L)
    (hb : 24 ≤ L.base_address_of_data)
    (hdl : L.base_address_of_data - 24 ≤ (input.drop 24).length)
    (hD : DirectoryEntry.ParseDirEntries ((input.drop 24).take (L.base_address_of_data - 24))
            = .ok D)
    (hmax : size_t_sub (size_t_sub L.record_length 24) (L.base_address_of_data - 24)
              ≤ SSIZE_MAX)
    (hfd : size_t_sub (size_t_sub L.record_length 24) (L.base_address_of_data - 24)
              ≤ ((input.drop 24).drop (L.base_address_of_data - 24)).length)
    (hr : ReadFields
            (((input.drop 24).drop (L.base_address_of_data - 24)).take
              (size_t_sub (size_t_sub L.record_length 24) (L.base_address_of_data - 24)))
            D [] "" = .ret r) :
    ReadNextRecord input leader
      = .ret ⟨r.ok,
          ((input.drop 24).drop (L.base_address_of_data - 24)).drop
            (size_t_sub (size_t_sub L.record_length 24) (L.base_address_of_data - 24)),
          some L, D, r.fields, r.err_msg⟩ := by
  have hlen : (input.take 24).length = 24 := by
    rw [List.length_take]; omega
  have hlen2 : ((input.drop 24).take (L.base_address_of_data - 24)).length
      = L.base_address_of_data - 24 := by
    rw [List.length_take]; omega
  have hlen3 : (((input.drop 24).drop (L.base_address_of_data - 24)).take
      (size_t_sub (size_t_sub L.record_length 24) (L.base_address_of_data - 24))).length
      = size_t_sub (size_t_sub L.record_length 24) (L.base_address_of_data - 24) := by
    rw [List.length_take]; omega
  simp only [ReadNextRecord, fread, Leader.LEADER_LENGTH, hlen, hL, hlen2, hD, hlen3, hr,
    ne_eq, not_true_eq_false, if_false]
  rw [if_neg (by omega), if_neg (by omega)]

end MarcUtil

/-! ## Serializing what the parsers read -/

theorem foldl_digits_shift (s : Str) :
    ∀ a : Nat, s.foldl (fun acc c => 10 * acc + (c - 0x30)) a
      = a * 10 ^ s.length + s.foldl (fun acc c => 10 * acc + (c - 0x30)) 0 := by
  induction s with
  | nil => intro a; simp
  | cons c s ih =>
    intro a
    simp only [List.foldl_cons, List.length_cons]
    rw [ih (10 * a + (c - 0x30)), ih (10 * 0 + (c - 0x30))]
    ring

theorem digits_injective (s : Str) :
    ∀ t : Str, s.length = t.length → s.all isDecimalDigit = true →
      t.all isDecimalDigit = true →
      s.foldl (fun acc c => 10 * acc + (c - 0x30)) 0
        = t.foldl (fun acc c => 10 * acc + (c - 0x30)) 0 →
      s = t := by
  induction s with
  | nil =>
    intro t hl _ _ _
    cases t with
    | nil => rfl
    | cons _ _ => simp at hl
  | cons c s ih =>
    intro t hl hs ht hv
    cases t with
    | nil => simp at hl
    | cons d t =>
      simp only [List.length_cons, Nat.add_right_cancel_iff] at hl
      simp only [List.all_cons, Bool.and_eq_true] at hs ht
      simp only [List.foldl_cons] at hv
      rw [foldl_digits_shift s, foldl_digits_shift t, hl] at hv
      have h1 := parseDecimal_foldl_lt s 0 hs.2
      have h2 := parseDecimal_foldl_lt t 0 ht.2
      rw [hl] at h1
      simp only [Nat.zero_add, Nat.one_mul, Nat.mul_zero] at h1 h2 hv
      have hP : 0 < 10 ^ t.length := Nat.pow_pos (by omega)
      have hq := congrArg (fun x => x / 10 ^ t.length) hv
      simp only at hq
      rw [Nat.add_comm, Nat.add_mul_div_right _ _ hP, Nat.div_eq_of_lt h1, Nat.add_comm _ (List.foldl _ _ t),
        Nat.add_mul_div_right _ _ hP, Nat.div_eq_of_lt h2] at hq
      have hcd : c = d := by
        have hc := hs.1
        have hd := ht.1
        simp only [isDecimalDigit, Bool.and_eq_true, decide_eq_true_eq] at hc hd
        omega
      subst hcd
      have hv2 : s.foldl (fun acc c => 10 * acc + (c - 0x30)) 0
          = t.foldl (fun acc c => 10 * acc + (c - 0x30)) 0 := by omega
      rw [ih t hl hs.2 ht.2 hv2]

theorem PadLeading_of_parseDecimal (s : Str) (n w : Nat) (hw : 1 ≤ w) (hlen : s.length = w)
    (h : parseDecimal s = some n) :
    StringUtil.PadLeading (to_string n) w 0x30 = s := by
  have hlt := parseDecimal_lt s n h
  rw [hlen] at hlt
  obtain ⟨hl, hp⟩ := parseDecimal_pad n w hw hlt
  simp only [parseDecimal] at h hp
  split at h
  · rename_i hs
    split at hp
    · rename_i ht
      simp only [Option.some.injEq] at h hp
      exact digits_injective _ s (by rw [hl, hlen]) ht hs (by rw [hp, h])
    · cases hp
  · cases h

theorem fixedDecimal_of_parseDecimal (s : Str) (n w : Nat) (hw : 1 ≤ w) (hlen : s.length = w)
    (h : parseDecimal s = some n) :
    DirectoryEntry.fixedDecimal n w = s := by
  have hlt := parseDecimal_lt s n h
  rw [hlen] at hlt
  rw [fixedDecimal_of_lt n w hw hlt]
  exact PadLeading_of_parseDecimal s n w hw hlen h

theorem Leader_toString_of_ParseLeader (s : Str) (L : Leader)
    (h : Leader.ParseLeader s = .ok L) : L.toString = s := by
  simp only [Leader.ParseLeader, Leader.LEADER_LENGTH] at h
  split at h
  · cases h
  · rename_i hlen
    have hlen : s.length = 24 := by omega
    split at h
    · rename_i rl base h1 h2
      cases h
      have e1 := PadLeading_of_parseDecimal (s.take 5) rl 5 (by omega)
        (by rw [List.length_take]; omega) h1
      have e2 := PadLeading_of_parseDecimal ((s.drop 12).take 5) base 5 (by omega)
        (by rw [List.length_take, List.length_drop]; omega) h2
      simp only [Leader.toString, e1, e2]
      have h3 : (s.drop 17).take 7 = (s.drop 12).drop 5 := by
        rw [List.drop_drop, List.take_of_length_le (by rw [List.length_drop]; omega)]
      have h4 : (s.drop 5).take 7 ++ s.drop 12 = s.drop 5 := by
        have : s.drop 12 = (s.drop 5).drop 7 := by rw [List.drop_drop]
        rw [this, List.take_append_drop]
      rw [h3, List.append_assoc, List.append_assoc, List.take_append_drop, h4,
        List.take_append_drop]
    · cases h

theorem toString_of_parseEntry (slot : Str) (e : DirectoryEntry) (hlen : slot.length = 12)
    (h : DirectoryEntry.parseEntry slot = some e) : e.toString = slot := by
  simp only [DirectoryEntry.parseEntry] at h
  split at h
  · rename_i fl off h1 h2
    cases h
    have e1 := fixedDecimal_of_parseDecimal ((slot.drop 3).take 4) fl 4 (by omega)
      (by rw [List.length_take, List.length_drop]; omega) h1
    have e2 := fixedDecimal_of_parseDecimal ((slot.drop 7).take 5) off 5 (by omega)
      (by rw [List.length_take, List.length_drop]; omega) h2
    simp only [DirectoryEntry.toString, e1, e2]
    have h3 : (slot.drop 7).take 5 = (slot.drop 3).drop 4 := by
      rw [List.drop_drop, List.take_of_length_le (by rw [List.length_drop]; omega)]
    rw [h3, List.append_assoc, List.take_append_drop, List.take_append_drop]
  · cases h

theorem toString_of_parseSlots :
    ∀ (count : Nat) (s : Str) (D : List DirectoryEntry),
      DirectoryEntry.parseSlots count s = some D → 12 * count ≤ s.length →
      D.flatMap DirectoryEntry.toString = s.take (12 * count) ∧ D.length = count := by
  intro count
  induction count with
  | zero =>
    intro s D h _
    simp only [DirectoryEntry.parseSlots, Option.some.injEq] at h
    subst h
    simp
  | succ n ih =>
    intro s D h hlen
    simp only [DirectoryEntry.parseSlots, DirectoryEntry.DIRECTORY_ENTRY_LENGTH] at h
    split at h
    · rename_i e es he hes
      cases h
      have h1 := toString_of_parseEntry (s.take 12) e (by rw [List.length_take]; omega) he
      obtain ⟨h2, h3⟩ := ih (s.drop 12) es hes (by rw [List.length_drop]; omega)
      refine ⟨?_, by simp only [List.length_cons, h3]⟩
      simp only [List.flatMap_cons, h1, h2]
      have : 12 * (n + 1) = 12 + 12 * n := by omega
      rw [this, List.take_add]
    · cases h

theorem ParseDirEntries_ok_inv (block : Str) (D : List DirectoryEntry)
    (h : DirectoryEntry.ParseDirEntries block = .ok D) :
    block = D.flatMap DirectoryEntry.toString ++ [FIELD_TERMINATOR]
      ∧ block.length = 12 * D.length + 1 := by
  simp only [DirectoryEntry.ParseDirEntries, DirectoryEntry.DIRECTORY_ENTRY_LENGTH] at h
  split at h
  · cases h
  · rename_i hmod
    split at h
    · cases h
    · rename_i hlast
      split at h
      · rename_i es hes
        cases h
        have hmod : block.length % 12 = 1 := by omega
        have hlast : block.getLast? = some FIELD_TERMINATOR := by
          by_contra hn; exact hlast hn
        obtain ⟨h1, h2⟩ := toString_of_parseSlots _ block D hes (by omega)
        obtain ⟨ys, hys⟩ := List.getLast?_eq_some_iff.mp hlast
        have hyl : block.length = ys.length + 1 := by
          rw [hys, List.length_append, List.length_singleton]
        have hk : 12 * (block.length / 12) = ys.length := by omega
        rw [hk] at h1
        refine ⟨?_, by omega⟩
        rw [h1]
        nth_rewrite 2 [hys]
        rw [List.take_left]
        exact hys
      · cases h

namespace MarcUtil

theorem ReadFields_reconstruct (R : Str) (D : List DirectoryEntry) (f0 : List Str)
    (m0 : String) (F : List Str) (m : String)
    (h : ReadFields R D f0 m0 = .ret ⟨true, F, m⟩) :
    F.flatMap (fun field => field ++ [FIELD_TERMINATOR]) ++ [RECORD_TERMINATOR] = R
      ∧ R.length = totalFieldLength D + 1 := by
  obtain ⟨hlast, hloop⟩ := ReadFields_ok_inv R D f0 m0 F m h
  obtain ⟨_, hpos, hterm, hlen, hF⟩ := loop_ok_inv R D 0 [] m0 F m hloop
  have hflat := fieldsFrom_flatMap R D 0 hpos hterm (by omega)
  refine ⟨?_, by omega⟩
  obtain ⟨ys, hys⟩ := List.getLast?_eq_some_iff.mp hlast
  have hyl : ys.length = totalFieldLength D := by
    have := congrArg List.length hys
    simp at this; omega
  rw [hF, List.nil_append, hflat, List.drop_zero, hys, ← hyl, List.take_left]

end MarcUtil

namespace MarcUtil

theorem serialize_from_eq :
    ∀ (D : List DirectoryEntry) (s : Nat),
      (∀ i e, D[i]? = some e → e.field_offset = s + fieldStart D i) →
      DirectoryEntry.serialize_from D s = D.flatMap DirectoryEntry.toString := by
  intro D
  induction D with
  | nil => intro s _; rfl
  | cons e D ih =>
    intro s h
    have h0 := h 0 e (by simp)
    rw [fieldStart_zero] at h0
    have he : ({ e with field_offset := s } : DirectoryEntry) = e := by
      cases e
      simp only at h0
      simp only [h0, Nat.add_zero]
    simp only [DirectoryEntry.serialize_from, List.flatMap_cons, he]
    rw [ih (s + e.field_length) (fun i x hx => by
      have := h (i + 1) x (by simpa using hx)
      rw [fieldStart_cons_succ] at this
      omega)]

theorem ReadNextRecord_roundtrip (stream : Str) (leader0 : Option Leader) (rest : Str)
    (L : Leader) (D : List DirectoryEntry) (F : List Str) (msg : String)
    (h : ReadNextRecord stream leader0 = .ret ⟨true, rest, some L, D, F, msg⟩) :
    stream = L.toString ++ D.flatMap DirectoryEntry.toString ++ [FIELD_TERMINATOR]
        ++ F.flatMap (fun field => field ++ [FIELD_TERMINATOR]) ++ [RECORD_TERMINATOR] ++ rest
      ∧ L.raw_leader = stream.take 24
      ∧ L.base_address_of_data = 24 + 12 * D.length + 1
      ∧ L.record_length = 24 + 12 * D.length + 1 + totalFieldLength D + 1
      ∧ rest.length + L.record_length = stream.length := by
  have h24 : 24 ≤ stream.length := by
    by_contra hlt
    rw [ReadNextRecord_short stream leader0 (by omega)] at h
    cases h
  rcases ReadNextRecord_ret_inv stream leader0 _ h24 h with ⟨hfalse, _⟩ | ⟨_, L', D', hL, hlead,
    hb, hdl, hD, hdir, hmax, hfd, hrest, hfields⟩
  · cases hfalse
  · simp only [Option.some.injEq] at hlead
    subst hlead
    simp only at hdir hrest hfields
    subst hdir
    obtain ⟨_, hraw, hrl, hbl⟩ := ParseLeader_ok _ _ hL
    have hLs := Leader_toString_of_ParseLeader _ _ hL
    obtain ⟨hblock, hblen⟩ := ParseDirEntries_ok_inv _ _ hD
    obtain ⟨hR, hRlen⟩ := ReadFields_reconstruct _ _ _ _ _ _ hfields
    rw [List.length_take, min_eq_left hdl] at hblen
    rw [List.length_take, min_eq_left hfd] at hRlen
    have hbase : L.base_address_of_data = 24 + 12 * D.length + 1 := by omega
    have hsz := hRlen
    have hrec : L.record_length = 24 + 12 * D.length + 1 + totalFieldLength D + 1 := by
      have hsz2 := hsz
      simp only [size_t_sub] at hsz2
      simp only [size_t_sub, SSIZE_MAX] at hmax
      omega
    refine ⟨?_, hraw, hbase, hrec, ?_⟩
    · have e1 : L.toString ++ D.flatMap DirectoryEntry.toString ++ [FIELD_TERMINATOR]
          ++ F.flatMap (fun field => field ++ [FIELD_TERMINATOR]) ++ [RECORD_TERMINATOR] ++ rest
          = L.toString ++ ((D.flatMap DirectoryEntry.toString ++ [FIELD_TERMINATOR])
              ++ ((F.flatMap (fun field => field ++ [FIELD_TERMINATOR]) ++ [RECORD_TERMINATOR])
                ++ rest)) := by
        simp only [List.append_assoc]
      rw [e1, hLs, ← hblock, hR, hrest, List.take_append_drop, List.take_append_drop,
        List.take_append_drop]
    · rw [hrest, hsz]
      rw [hsz] at hfd
      simp only [List.length_drop] at hfd hdl ⊢
      omega

end MarcUtil

/-! ## The claims -/

namespace MarcUtil

/-- C1. Round trip decode, then compose.  For every byte stream on which `ReadNextRecord`
succeeds (whatever `*leader` held before), returning the leader `L`, the directory `D` and
the field contents `F`, `ComposeRecord D F L` returns exactly the bytes `ReadNextRecord`
consumed from the stream for the record: the first `L.record_length` bytes of the stream,
the stream being these bytes followed by what is left unread; and `ComposeRecord` leaves
the numbers of the leader as they were decoded.  When the field-start values decoded are the
running offsets of the fields in the field data, the bytes consumed are also the leader,
the directory as `serialize_all` of spec 4.2 writes it with the field-start values
recomputed, `0x1E`, the fields with their terminators and `0x1D`. -/
theorem C1_decode_then_compose (stream : Str) (leader0 : Option Leader) (rest : Str)
    (L : Leader) (D : List DirectoryEntry) (F : List Str) (msg : String)
    (h : ReadNextRecord stream leader0 = .ret ⟨true, rest, some L, D, F, msg⟩) :
    (ComposeRecord D F L).1 = stream.take L.record_length
      ∧ stream = (ComposeRecord D F L).1 ++ rest
      ∧ (ComposeRecord D F L).1.length = L.record_length
      ∧ (ComposeRecord D F L).2 = L
      ∧ ((∀ i e, D[i]? = some e → e.field_offset = fieldStart D i) →
          L.toString ++ DirectoryEntry.serialize_all D ++ [FIELD_TERMINATOR]
              ++ F.flatMap (fun field => field ++ [FIELD_TERMINATOR]) ++ [RECORD_TERMINATOR]
            = stream.take L.record_length) := by
  obtain ⟨hstream, hraw, hbase, hrec, hrestlen⟩ := ReadNextRecord_roundtrip stream leader0 rest L D F
    msg h
  have hlead : (ComposeRecord D F L).2 = L := by
    rw [ComposeRecord_leader, ← hrec, ← hbase]
  have hcomp : (ComposeRecord D F L).1
      = L.toString ++ D.flatMap DirectoryEntry.toString ++ [FIELD_TERMINATOR]
          ++ F.flatMap (fun field => field ++ [FIELD_TERMINATOR]) ++ [RECORD_TERMINATOR] := by
    rw [ComposeRecord_record, hlead]
  have hsplit : stream = (ComposeRecord D F L).1 ++ rest := by
    rw [hcomp]; exact hstream
  have hlen : (ComposeRecord D F L).1.length = L.record_length := by
    have hl := congrArg List.length hsplit
    rw [List.length_append] at hl
    omega
  have htake : (ComposeRecord D F L).1 = stream.take L.record_length := by
    rw [← hlen]
    conv_rhs => rw [hsplit]
    rw [List.take_left]
  refine ⟨htake, hsplit, hlen, hlead, ?_⟩
  intro hoff
  rw [DirectoryEntry.serialize_all,
    serialize_from_eq D 0 (fun i e he => by rw [hoff i e he, Nat.zero_add]), ← hcomp]
  exact htake

/-- The statement of C1 on the sample stream followed by three more bytes: the record
composed from what is decoded is the first 56 bytes of the stream. -/
theorem C1_decode_then_compose_witness :
    ReadNextRecord (sampleStream ++ [0x30, 0x30, 0x30]) none
        = .ret ⟨true, [0x30, 0x30, 0x30], some sampleLeader, sampleDirectory, sampleFields, ""⟩
      ∧ (ComposeRecord sampleDirectory sampleFields sampleLeader).1
          = (sampleStream ++ [0x30, 0x30, 0x30]).take sampleLeader.record_length
      ∧ (ComposeRecord sampleDirectory sampleFields sampleLeader).1 = sampleStream
      ∧ DirectoryEntry.serialize_all sampleDirectory
          = sampleDirectory.flatMap DirectoryEntry.toString :=
  ⟨by decide,
   (C1_decode_then_compose (sampleStream ++ [0x30, 0x30, 0x30]) none [0x30, 0x30, 0x30]
     sampleLeader sampleDirectory sampleFields "" (by decide)).1,
   by decide, by decide⟩

/-- C2. Field-data reconstruction: when `ReadFields` succeeds on the blob `R` and the
directory `D` with fields `F`, then each field followed by `0x1E`, in order, and then `0x1D`
is `R` byte for byte; the length of `R` is the sum of the field lengths of `D` plus 1; and
this is the tail of the record `ComposeRecord` writes for `D` and `F`, after the leader, the
directory and its terminator. -/
theorem C2_field_data_reconstruction (R : Str) (D : List DirectoryEntry) (fields0 : List Str)
    (msg0 : String) (F : List Str) (msg : String)
    (h : ReadFields R D fields0 msg0 = .ret ⟨true, F, msg⟩) :
    F.flatMap (fun field => field ++ [FIELD_TERMINATOR]) ++ [RECORD_TERMINATOR] = R
      ∧ R.length = totalFieldLength D + 1
      ∧ ∀ leader : Leader,
          (ComposeRecord D F leader).1
            = ((ComposeRecord D F leader).2.toString ++ D.flatMap DirectoryEntry.toString
                ++ [FIELD_TERMINATOR]) ++ R := by
  obtain ⟨hlast, hloop⟩ := ReadFields_ok_inv R D fields0 msg0 F msg h
  obtain ⟨_, hpos, hterm, hlen, hF⟩ := loop_ok_inv R D 0 [] msg0 F msg hloop
  have hflat := fieldsFrom_flatMap R D 0 hpos hterm (by omega)
  have hR : F.flatMap (fun field => field ++ [FIELD_TERMINATOR]) ++ [RECORD_TERMINATOR] = R := by
    obtain ⟨ys, hys⟩ := List.getLast?_eq_some_iff.mp hlast
    have hyl : ys.length = totalFieldLength D := by
      have := congrArg List.length hys
      simp at this; omega
    rw [hF, List.nil_append, hflat, List.drop_zero, hys, ← hyl, List.take_left]
  refine ⟨hR, by omega, ?_⟩
  intro leader
  rw [ComposeRecord_record, ← hR]
  simp only [List.append_assoc]

/-- The statement of C2 on the sample field data. -/
theorem C2_field_data_reconstruction_witness :
    ReadFields sampleFieldData sampleDirectory [] "" = .ret ⟨true, sampleFields, ""⟩
      ∧ sampleFields.flatMap (fun field => field ++ [FIELD_TERMINATOR]) ++ [RECORD_TERMINATOR]
          = sampleFieldData
      ∧ sampleFieldData.length = totalFieldLength sampleDirectory + 1 :=
  ⟨by decide,
   (C2_field_data_reconstruction sampleFieldData sampleDirectory [] "" sampleFields ""
     (by decide)).1,
   (C2_field_data_reconstruction sampleFieldData sampleDirectory [] "" sampleFields ""
     (by decide)).2.1⟩

/-- C3. Re-decode of composed output.  For a leader of 24 retained bytes, a directory `D` of
3-byte tags and fields `F` that are valid inputs (as many fields as entries and every
`field_length` the length of its field plus 1: the two lists of numbers are equal; every
`field_length` within 4 digits and the computed record size within 5 digits),
`ReadNextRecord` on a stream that starts with the bytes `ComposeRecord` returns succeeds
with an empty message, whatever `*leader` held before; it leaves the stream right behind the
record, returns the leader `ComposeRecord` wrote, a directory with the tags and the field
lengths of `D` in the same order, and the field contents `F`.  When the field-start values of
`D` are within 5 digits as well, the directory returned is `D`. -/
theorem C3_read_of_composed (D : List DirectoryEntry) (F : List Str) (leader : Leader)
    (leader0 : Option Leader) (rest : Str)
    (hF : D.map DirectoryEntry.field_length = F.map (fun field => field.length + 1))
    (hfl : ∀ e ∈ D, e.field_length ≤ 9999)
    (hsize : 24 + 12 * D.length + 1 + totalFieldLength D + 1 ≤ 99999)
    (hraw : leader.raw_leader.length = 24)
    (htag : ∀ e ∈ D, e.tag.length = 3) :
    ∃ D', ReadNextRecord ((ComposeRecord D F leader).1 ++ rest) leader0
          = .ret ⟨true, rest,
              some ⟨24 + 12 * D.length + 1 + totalFieldLength D + 1, 24 + 12 * D.length + 1,
                (ComposeRecord D F leader).2.toString⟩, D', F, ""⟩
      ∧ D'.map DirectoryEntry.tag = D.map DirectoryEntry.tag
      ∧ D'.map DirectoryEntry.field_length = D.map DirectoryEntry.field_length
      ∧ D'.length = D.length
      ∧ ((∀ e ∈ D, e.field_offset ≤ 99999) → D' = D) := by
  obtain ⟨hl24, htake, hparse, hlen⟩ := composed_record_shape D F leader hraw hsize
  obtain ⟨D', hD', ht, hl, ho⟩ := ParseDirEntries_toString D htag hfl
  have hdir := directory_toString_length D htag
  have hsum : (F.map (fun field => field.length + 1)).sum = totalFieldLength D := by
    rw [← hF]; rfl
  have hfdl : (F.flatMap (fun field => field ++ [FIELD_TERMINATOR]) ++ [RECORD_TERMINATOR]).length
      = totalFieldLength D + 1 := by
    rw [List.length_append, field_data_length, hsum, List.length_singleton]
  have hdl : (D.flatMap DirectoryEntry.toString ++ [FIELD_TERMINATOR]).length
      = 12 * D.length + 1 := by
    rw [List.length_append, hdir, List.length_singleton]
  have hinput : (ComposeRecord D F leader).1 ++ rest
      = (ComposeRecord D F leader).2.toString
          ++ ((D.flatMap DirectoryEntry.toString ++ [FIELD_TERMINATOR])
            ++ ((F.flatMap (fun field => field ++ [FIELD_TERMINATOR]) ++ [RECORD_TERMINATOR])
              ++ rest)) := by
    rw [ComposeRecord_record]
    simp only [List.append_assoc]
  have h24 : ((ComposeRecord D F leader).1 ++ rest).take 24
      = (ComposeRecord D F leader).2.toString := by
    rw [hinput]; exact List.take_left' hl24
  have hd24 : ((ComposeRecord D F leader).1 ++ rest).drop 24
      = (D.flatMap DirectoryEntry.toString ++ [FIELD_TERMINATOR])
          ++ ((F.flatMap (fun field => field ++ [FIELD_TERMINATOR]) ++ [RECORD_TERMINATOR])
            ++ rest) := by
    rw [hinput]; exact List.drop_left' hl24
  have hbase : 24 + 12 * D.length + 1 - 24 = 12 * D.length + 1 := by omega
  have hfds : size_t_sub (size_t_sub (24 + 12 * D.length + 1 + totalFieldLength D + 1) 24)
      (12 * D.length + 1) = totalFieldLength D + 1 := by
    simp only [size_t_sub]; omega
  have hL : Leader.ParseLeader (((ComposeRecord D F leader).1 ++ rest).take 24)
      = .ok ⟨24 + 12 * D.length + 1 + totalFieldLength D + 1, 24 + 12 * D.length + 1,
          (ComposeRecord D F leader).2.toString⟩ := by
    rw [h24]; rw [htake] at hparse; exact hparse
  have hfields : ReadFields
      (F.flatMap (fun field => field ++ [FIELD_TERMINATOR]) ++ [RECORD_TERMINATOR]) D' [] ""
      = .ret ⟨true, F, ""⟩ := by
    rw [ReadFields_of_last _ _ _ _ (by rw [List.getLast?_eq_some_iff]; exact ⟨_, rfl⟩)]
    have h := loop_composed F D' [] [] "" (by rw [hl, hF])
    simpa using h
  have hmain := ReadNextRecord_of_parts ((ComposeRecord D F leader).1 ++ rest) leader0 _ D'
    ⟨true, F, ""⟩
    (by rw [List.length_append, hlen]; omega) hL (by simp only; omega)
    (by
      simp only [hbase]
      rw [hd24, List.length_append, hdl]; omega)
    (by
      simp only [hbase]
      rw [hd24, List.take_left' hdl]; exact hD')
    (by simp only [hbase, hfds, SSIZE_MAX]; omega)
    (by
      simp only [hbase, hfds]
      rw [hd24, List.drop_left' hdl, List.length_append, hfdl]; omega)
    (by
      simp only [hbase, hfds]
      rw [hd24, List.drop_left' hdl, List.take_left' hfdl]; exact hfields)
  simp only [hbase, hfds] at hmain
  rw [hd24, List.drop_left' hdl, List.drop_left' hfdl] at hmain
  refine ⟨D', hmain, ht, hl, ?_, ho⟩
  have := congrArg List.length ht
  simpa using this

/-- The statement of C3 on the sample directory, fields and leader: the record composed from
them is decoded to them. -/
theorem C3_read_of_composed_witness :
    sampleDirectory.map DirectoryEntry.field_length
        = sampleFields.map (fun field => field.length + 1)
      ∧ (∀ e ∈ sampleDirectory, e.field_length ≤ 9999)
      ∧ 24 + 12 * sampleDirectory.length + 1 + totalFieldLength sampleDirectory + 1 ≤ 99999
      ∧ sampleLeader.raw_leader.length = 24
      ∧ (∀ e ∈ sampleDirectory, e.tag.length = 3)
      ∧ ∃ D', ReadNextRecord ((ComposeRecord sampleDirectory sampleFields sampleLeader).1 ++ [])
              none
            = .ret ⟨true, [],
                some ⟨24 + 12 * sampleDirectory.length + 1 + totalFieldLength sampleDirectory + 1,
                  24 + 12 * sampleDirectory.length + 1,
                  (ComposeRecord sampleDirectory sampleFields sampleLeader).2.toString⟩,
                D', sampleFields, ""⟩
          ∧ D'.map DirectoryEntry.tag = sampleDirectory.map DirectoryEntry.tag
          ∧ D'.map DirectoryEntry.field_length
              = sampleDirectory.map DirectoryEntry.field_length
          ∧ D'.length = sampleDirectory.length
          ∧ ((∀ e ∈ sampleDirectory, e.field_offset ≤ 99999) → D' = sampleDirectory) :=
  ⟨by decide, by decide, by decide, by decide, by decide,
   C3_read_of_composed sampleDirectory sampleFields sampleLeader none []
     (by decide) (by decide) (by decide) (by decide) (by decide)⟩

/-- C4, as stated, fails: for an empty directory and one field, `ComposeRecord` returns a
record, the leader followed by `0x1E`, the field `"A"`, `0x1E` and `0x1D`. -/
theorem C4_compose_length_mismatch_returns :
    ([] : List DirectoryEntry).length ≠ [[0x41]].length
      ∧ (ComposeRecord [] [[0x41]] sampleLeader).1
          = [0x30, 0x30, 0x30, 0x32, 0x36] ++ List.replicate 7 0x20
              ++ [0x30, 0x30, 0x30, 0x32, 0x35] ++ List.replicate 7 0x20
              ++ [0x1E, 0x41, 0x1E, 0x1D] := by
  decide

/-- C4, amended. `ComposeRecord` has no length check and no way to report an error: also
for a directory `D` and a field list `F` of different lengths it returns a record, made of
the leader as rewritten from `D`, the entries of `D`, `0x1E`, every field of `F` followed by
`0x1E`, and `0x1D`. -/
theorem C4_compose_without_length_check (D : List DirectoryEntry) (F : List Str)
    (leader : Leader) (_h : D.length ≠ F.length) :
    (ComposeRecord D F leader).1
      = (ComposeRecord D F leader).2.toString ++ D.flatMap DirectoryEntry.toString
          ++ [FIELD_TERMINATOR] ++ F.flatMap (fun field => field ++ [FIELD_TERMINATOR])
          ++ [RECORD_TERMINATOR] :=
  ComposeRecord_record D F leader

/-- The statement of C4, amended, on a directory of two entries and a single field. -/
theorem C4_compose_without_length_check_witness :
    sampleDirectory.length ≠ [[0x41]].length
      ∧ (ComposeRecord sampleDirectory [[0x41]] sampleLeader).1
          = (ComposeRecord sampleDirectory [[0x41]] sampleLeader).2.toString
              ++ sampleDirectory.flatMap DirectoryEntry.toString
              ++ [FIELD_TERMINATOR] ++ [[0x41]].flatMap (fun field => field ++ [FIELD_TERMINATOR])
              ++ [RECORD_TERMINATOR] :=
  ⟨by decide, C4_compose_without_length_check sampleDirectory [[0x41]] sampleLeader (by decide)⟩

/-- C5. Leader arithmetic of `ComposeRecord`: for a directory `D` of `n` entries, any fields
and any incoming leader, the leader is left with `record_length` equal to
`24 + 12*n + 1 + (sum of the field lengths of D) + 1` and `base_address_of_data` equal to
`24 + 12*n + 1`; both are the same for every other field list and incoming leader. -/
theorem C5_leader_arithmetic (D : List DirectoryEntry) (F : List Str) (leader : Leader) :
    (ComposeRecord D F leader).2.record_length
        = 24 + 12 * D.length + 1 + totalFieldLength D + 1
      ∧ (ComposeRecord D F leader).2.base_address_of_data = 24 + 12 * D.length + 1
      ∧ ∀ (F' : List Str) (leader' : Leader),
          (ComposeRecord D F' leader').2.record_length
              = (ComposeRecord D F leader).2.record_length
            ∧ (ComposeRecord D F' leader').2.base_address_of_data
              = (ComposeRecord D F leader).2.base_address_of_data := by
  have hlen : ∀ (F : List Str) (leader : Leader),
      (ComposeRecord D F leader).2.record_length
        = 24 + 12 * D.length + 1 + totalFieldLength D + 1 := by
    intro F leader
    simp only [ComposeRecord, Leader.setRecordLength, Leader.setBaseAddressOfData,
      ComposeRecord_record_size, Leader.LEADER_LENGTH, DirectoryEntry.DIRECTORY_ENTRY_LENGTH]
    omega
  have hbase : ∀ (F : List Str) (leader : Leader),
      (ComposeRecord D F leader).2.base_address_of_data = 24 + 12 * D.length + 1 := by
    intro F leader
    simp only [ComposeRecord, Leader.setRecordLength, Leader.setBaseAddressOfData,
      Leader.LEADER_LENGTH, DirectoryEntry.DIRECTORY_ENTRY_LENGTH]
    omega
  refine ⟨hlen F leader, hbase F leader, ?_⟩
  intro F' leader'
  rw [hlen F' leader', hlen F leader, hbase F' leader', hbase F leader]
  exact ⟨rfl, rfl⟩


/-- C6. Index alignment of the field splitter: when `ReadFields` succeeds on the blob `R`
and the directory `D`, whatever the output vector held before, the output has exactly as
many fields as `D` has entries, and field `i` is the `field_length - 1` bytes of `R` from the
offset `fieldStart D i` (the sum of the field lengths before entry `i`) on: the slice of
entry `i` is this field followed by `0x1E`. -/
theorem C6_index_alignment (R : Str) (D : List DirectoryEntry) (fields0 : List Str)
    (msg0 : String) (F : List Str) (msg : String)
    (h : ReadFields R D fields0 msg0 = .ret ⟨true, F, msg⟩) :
    F.length = D.length
      ∧ ∀ (i : Nat) (hi : i < D.length),
          F[i]? = some ((R.drop (fieldStart D i)).take (D[i].field_length - 1))
            ∧ ((R.drop (fieldStart D i)).take (D[i].field_length - 1)).length
                = D[i].field_length - 1
            ∧ (R.drop (fieldStart D i)).take D[i].field_length
                = (R.drop (fieldStart D i)).take (D[i].field_length - 1) ++ [FIELD_TERMINATOR] := by
  obtain ⟨_, hloop⟩ := ReadFields_ok_inv R D fields0 msg0 F msg h
  obtain ⟨_, hpos, hterm, hlen, hF⟩ := loop_ok_inv R D 0 [] msg0 F msg hloop
  rw [List.nil_append] at hF
  subst hF
  refine ⟨fieldsFrom_length R D 0, ?_⟩
  intro i hi
  have h1 : 1 ≤ D[i].field_length := hpos _ (List.getElem_mem hi)
  have hend := fieldEnd_eq D i hi
  have hle := fieldEnd_le_total D i
  have hti := (terminatedFrom_iff R D 0).mp hterm i hi
  rw [Nat.zero_add, hend] at hti
  refine ⟨?_, ?_, slice_eq R _ _ h1 hti⟩
  · simpa using fieldsFrom_getElem? R D 0 i hi
  · rw [List.length_take, List.length_drop]; omega

/-- The statement of C6 on the sample field data. -/
theorem C6_index_alignment_witness :
    ReadFields sampleFieldData sampleDirectory [[0x41]] "" = .ret ⟨true, sampleFields, ""⟩
      ∧ sampleFields.length = sampleDirectory.length
      ∧ sampleFields[1]? = some ((sampleFieldData.drop (fieldStart sampleDirectory 1)).take 1) :=
  ⟨by decide,
   (C6_index_alignment sampleFieldData sampleDirectory [[0x41]] "" sampleFields "" (by decide)).1,
   ((C6_index_alignment sampleFieldData sampleDirectory [[0x41]] "" sampleFields ""
      (by decide)).2 1 (by decide)).1⟩

/-- C7. Exact acceptance condition of the field splitter: on a non-empty blob `R` and a
directory `D` whose entries all have `field_length >= 1`, `ReadFields` succeeds if and only
if the last byte of `R` is `0x1D`, the field lengths of `D` sum to `len(R) - 1`, and for
every entry `i` the byte of `R` at the offset `fieldEnd D i - 1` (the last byte of its
slice) is `0x1E`. -/
theorem C7_acceptance_condition (R : Str) (D : List DirectoryEntry) (fields0 : List Str)
    (msg0 : String) (_hne : R ≠ []) (hpos : ∀ e ∈ D, 1 ≤ e.field_length) :
    (∃ F msg, ReadFields R D fields0 msg0 = .ret ⟨true, F, msg⟩)
      ↔ (R.getLast? = some RECORD_TERMINATOR
          ∧ totalFieldLength D + 1 = R.length
          ∧ ∀ i, i < D.length → R[fieldEnd D i - 1]? = some FIELD_TERMINATOR) := by
  constructor
  · rintro ⟨F, msg, h⟩
    obtain ⟨hlast, hloop⟩ := ReadFields_ok_inv R D fields0 msg0 F msg h
    obtain ⟨_, _, hterm, hlen, _⟩ := loop_ok_inv R D 0 [] msg0 F msg hloop
    refine ⟨hlast, by omega, ?_⟩
    intro i hi
    simpa using (terminatedFrom_iff R D 0).mp hterm i hi
  · rintro ⟨hlast, hlen, hterm⟩
    refine ⟨fieldsFrom R D 0, msg0, ?_⟩
    rw [ReadFields_of_last R D fields0 msg0 hlast,
      loop_reach R D D.length msg0 hpos (Nat.le_refl _)
        (by simp only [fieldStart, List.take_length]; omega)
        (fun i hi => hterm i hi)]
    simp only [List.drop_length, List.take_length, fieldStart, ReadFields.loop]
    rw [if_neg (by omega)]

/-- The statement of C7 on the sample field data. -/
theorem C7_acceptance_condition_witness :
    sampleFieldData ≠ [] ∧ (∀ e ∈ sampleDirectory, 1 ≤ e.field_length)
      ∧ ((∃ F msg, ReadFields sampleFieldData sampleDirectory [] "" = .ret ⟨true, F, msg⟩)
          ↔ (sampleFieldData.getLast? = some RECORD_TERMINATOR
              ∧ totalFieldLength sampleDirectory + 1 = sampleFieldData.length
              ∧ ∀ i, i < sampleDirectory.length →
                  sampleFieldData[fieldEnd sampleDirectory i - 1]? = some FIELD_TERMINATOR)) :=
  ⟨by decide, by decide,
   C7_acceptance_condition sampleFieldData sampleDirectory [] "" (by decide) (by decide)⟩



/-- C8. Missing record terminator: on a non-empty blob `R` whose last byte is not `0x1D`,
`ReadFields` fails with `missing trailing record terminator!` for every directory `D`; the
output vector is empty, whatever it held before: no directory entry has been looked at. -/
theorem C8_missing_record_terminator (R : Str) (D : List DirectoryEntry) (fields0 : List Str)
    (msg0 : String) (hne : R ≠ []) (hlast : R.getLast? ≠ some RECORD_TERMINATOR) :
    ReadFields R D fields0 msg0
      = .ret ⟨false, [], "missing trailing record terminator!"⟩ :=
  ReadFields_of_not_last R D fields0 msg0 hne hlast

/-- The statement of C8 on a blob that is well formed but for its missing `0x1D`. -/
theorem C8_missing_record_terminator_witness :
    sampleFieldData.dropLast ≠ []
      ∧ sampleFieldData.dropLast.getLast? ≠ some RECORD_TERMINATOR
      ∧ ReadFields sampleFieldData.dropLast sampleDirectory sampleFields ""
          = .ret ⟨false, [], "missing trailing record terminator!"⟩ :=
  ⟨by decide, by decide,
   C8_missing_record_terminator sampleFieldData.dropLast sampleDirectory sampleFields ""
     (by decide) (by decide)⟩

/-- C9. Field overrun: let the blob `R` end in `0x1D` and all entries of the directory `D`
have `field_length >= 1`.  If `k` is the first entry whose slice ends at or beyond
`len(R)`, and the slice of every entry before `k` ends in `0x1E`, then `ReadFields` fails
with `misaligned field, extending past the record!`, the fields before `k` stored.  In
particular this is so, under the same conditions on the slices before the last one, for a
directory whose field lengths sum to exactly `len(R)`. -/
theorem C9_field_overrun (R : Str) (D : List DirectoryEntry) (fields0 : List Str)
    (msg0 : String) (hlast : R.getLast? = some RECORD_TERMINATOR)
    (hpos : ∀ e ∈ D, 1 ≤ e.field_length) :
    (∀ k, k < D.length → R.length ≤ fieldEnd D k →
        (∀ i, i < k → fieldEnd D i < R.length) →
        (∀ i, i < k → R[fieldEnd D i - 1]? = some FIELD_TERMINATOR) →
        ReadFields R D fields0 msg0
          = .ret ⟨false, fieldsFrom R (D.take k) 0,
              "misaligned field, extending past the record!"⟩)
      ∧ (totalFieldLength D = R.length →
          (∀ i, i < D.length - 1 → R[fieldEnd D i - 1]? = some FIELD_TERMINATOR) →
          ReadFields R D fields0 msg0
            = .ret ⟨false, fieldsFrom R (D.take (D.length - 1)) 0,
                "misaligned field, extending past the record!"⟩) := by
  have hne : R ≠ [] := by rintro rfl; simp at hlast
  have hRpos : 1 ≤ R.length := List.length_pos.mpr hne
  have main : ∀ k, k < D.length → R.length ≤ fieldEnd D k →
      (∀ i, i < k → fieldEnd D i < R.length) →
      (∀ i, i < k → R[fieldEnd D i - 1]? = some FIELD_TERMINATOR) →
      ReadFields R D fields0 msg0
        = .ret ⟨false, fieldsFrom R (D.take k) 0,
            "misaligned field, extending past the record!"⟩ := by
    intro k hk hover hfirst hterm
    have hfit : fieldStart D k < R.length := by
      cases k with
      | zero => rw [fieldStart_zero]; omega
      | succ j => exact hfirst j (Nat.lt_succ_self j)
    rw [ReadFields_of_last R D fields0 msg0 hlast,
      loop_reach R D k msg0 hpos (Nat.le_of_lt hk) hfit hterm,
      List.drop_eq_getElem_cons hk]
    exact loop_cons_overrun R _ _ _ _ _ (by rw [← fieldEnd_eq D k hk]; exact hover)
  refine ⟨main, ?_⟩
  intro hsum hterm
  have hD : 1 ≤ D.length := by
    rcases Nat.eq_zero_or_pos D.length with h0 | h0
    · rw [List.length_eq_zero] at h0
      subst h0
      simp [totalFieldLength] at hsum
      omega
    · exact h0
  refine main (D.length - 1) (by omega) ?_ ?_ ?_
  · rw [fieldEnd_of_last D _ (by omega), hsum]
  · intro i hi
    rw [← hsum]
    exact fieldEnd_lt_total D hpos i (by omega)
  · intro i hi
    exact hterm i hi

/-- The statement of C9 on a directory whose field lengths sum to the length of the blob. -/
theorem C9_field_overrun_witness :
    sampleFieldData.getLast? = some RECORD_TERMINATOR
      ∧ (∀ e ∈ [(⟨tag001, 4, 0⟩ : DirectoryEntry), ⟨tag245, 3, 4⟩], 1 ≤ e.field_length)
      ∧ totalFieldLength [⟨tag001, 4, 0⟩, ⟨tag245, 3, 4⟩] = sampleFieldData.length
      ∧ ReadFields sampleFieldData [⟨tag001, 4, 0⟩, ⟨tag245, 3, 4⟩] [] ""
          = .ret ⟨false, [[0x31, 0x32, 0x33]],
              "misaligned field, extending past the record!"⟩ :=
  ⟨by decide, by decide, by decide,
   (C9_field_overrun sampleFieldData [⟨tag001, 4, 0⟩, ⟨tag245, 3, 4⟩] [] ""
     (by decide) (by decide)).2 (by decide) (by decide)⟩

/-- C10. Unexhausted record: let the blob `R` end in `0x1D` and all entries of the
directory `D` have `field_length >= 1`.  If the slice of every entry ends in `0x1E` and the
field lengths sum to less than `len(R) - 1`, then `ReadFields` fails with
`field extents do not exhaust record!`, all fields stored.  And with an empty directory
`ReadFields` succeeds exactly on the blob that consists of the one byte `0x1D`. -/
theorem C10_unexhausted_record (R : Str) (D : List DirectoryEntry) (fields0 : List Str)
    (msg0 : String) :
    (R.getLast? = some RECORD_TERMINATOR → (∀ e ∈ D, 1 ≤ e.field_length) →
        (∀ i, i < D.length → R[fieldEnd D i - 1]? = some FIELD_TERMINATOR) →
        totalFieldLength D + 1 < R.length →
        ReadFields R D fields0 msg0
          = .ret ⟨false, fieldsFrom R D 0, "field extents do not exhaust record!"⟩)
      ∧ ((∃ F msg, ReadFields R [] fields0 msg0 = .ret ⟨true, F, msg⟩)
          ↔ R = [RECORD_TERMINATOR]) := by
  constructor
  · intro hlast hpos hterm hlen
    rw [ReadFields_of_last R D fields0 msg0 hlast,
      loop_reach R D D.length msg0 hpos (Nat.le_refl _)
        (by simp only [fieldStart, List.take_length]; omega)
        (fun i hi => hterm i hi)]
    simp only [List.drop_length, List.take_length, fieldStart, ReadFields.loop]
    rw [if_pos (by omega)]
  · constructor
    · rintro ⟨F, msg, h⟩
      obtain ⟨hlast, hloop⟩ := ReadFields_ok_inv R [] fields0 msg0 F msg h
      obtain ⟨_, _, _, hlen, _⟩ := loop_ok_inv R [] 0 [] msg0 F msg hloop
      obtain ⟨ys, hys⟩ := List.getLast?_eq_some_iff.mp hlast
      have hy : ys.length = 0 := by
        have := congrArg List.length hys
        simp [totalFieldLength] at hlen this
        omega
      rw [List.length_eq_zero] at hy
      rw [hys, hy, List.nil_append]
    · rintro rfl
      exact ⟨[], msg0, by simp [ReadFields, ReadFields.loop, index, size_t_pred]⟩

/-- The statement of C10 on a blob with one byte more than the directory covers. -/
theorem C10_unexhausted_record_witness :
    (0x41 :: sampleFieldData).getLast? = some RECORD_TERMINATOR
      ∧ (∀ e ∈ [(⟨tag001, 5, 0⟩ : DirectoryEntry)], 1 ≤ e.field_length)
      ∧ totalFieldLength [⟨tag001, 5, 0⟩] + 1 < (0x41 :: sampleFieldData).length
      ∧ ReadFields (0x41 :: sampleFieldData) [⟨tag001, 5, 0⟩] [] ""
          = .ret ⟨false, [[0x41, 0x31, 0x32, 0x33]], "field extents do not exhaust record!"⟩ :=
  ⟨by decide, by decide, by decide,
   (C10_unexhausted_record (0x41 :: sampleFieldData) [⟨tag001, 5, 0⟩] [] "").1
     (by decide) (by decide) (by decide) (by decide)⟩

/-- C11, as stated, fails: on the 5 bytes `"123"`, `0x1E`, `0x1D` and the single directory
entry with tag `"001"`, field length 5 and offset 0, `ReadFields` does not succeed; it
returns false with the field-overrun message and no field. -/
theorem C11_scenario_field_length_five_fails :
    ReadFields scenarioFieldData [⟨tag001, 5, 0⟩] [] ""
        = .ret ⟨false, [], "misaligned field, extending past the record!"⟩
      ∧ ReadFields scenarioFieldData [⟨tag001, 5, 0⟩] [] ""
          ≠ .ret ⟨true, [[0x31, 0x32, 0x33]], ""⟩ := by
  decide

/-- C11, amended.  On the 5 bytes `"123"`, `0x1E`, `0x1D`, `ReadFields` succeeds and yields
exactly the one field `"123"` when the single directory entry (tag `"001"`, offset 0) has
the field length 4, the three bytes of the field and its terminator; with the field length
5 of the scenario the slice would take in the record terminator, and `ReadFields` returns
false with the field-overrun message and no field. -/
theorem C11_scenario_decodes_with_field_length_four (fields0 : List Str) (msg0 : String) :
    ReadFields scenarioFieldData [⟨tag001, 4, 0⟩] fields0 msg0
        = .ret ⟨true, [[0x31, 0x32, 0x33]], msg0⟩
      ∧ ReadFields scenarioFieldData [⟨tag001, 5, 0⟩] fields0 msg0
        = .ret ⟨false, [], "misaligned field, extending past the record!"⟩ :=
  ⟨rfl, rfl⟩

/-- C12. The validator check by check.  `RecordSeemsCorrect` returns true on the byte string
`r` if and only if `r` has at least 24 bytes, its first 24 bytes parse as a leader, the
leader's `record_length` is `len(r)`, `len(r) <= 99999`, the base address is above 24,
`(base address - 24 - 1) mod 12 = 0`, the byte of `r` at index `base address - 1` is `0x1E`
and the last byte of `r` is `0x1D`; when it returns false, the message is the one of the
first of these checks, in this order, that `r` violates.  When `r` violates a check, the
function returns false with the message of the first such check, except where the first
six checks pass and the index `base address - 1` lies beyond the end of `r`: exactly there
the read of the seventh check is outside the record and the behaviour undefined, as on
`overrunRecord`, where the first violated check is the directory-terminator check and no
false is returned. -/
theorem C12_validator_acceptance (r : Str) (msg0 : String) :
    ((∃ msg, RecordSeemsCorrect r msg0 = .ret ⟨true, msg⟩)
        ↔ (24 ≤ r.length ∧ ∃ L, Leader.ParseLeader (r.take 24) = .ok L
            ∧ L.record_length = r.length ∧ r.length ≤ 99999 ∧ 24 < L.base_address_of_data
            ∧ (L.base_address_of_data - 24 - 1) % 12 = 0
            ∧ r[L.base_address_of_data - 1]? = some FIELD_TERMINATOR
            ∧ r.getLast? = some RECORD_TERMINATOR))
      ∧ (∀ msg, RecordSeemsCorrect r msg0 = .ret ⟨false, msg⟩ → firstViolatedCheck r = some msg)
      ∧ (∀ msg, firstViolatedCheck r = some msg →
          RecordSeemsCorrect r msg0 = .ret ⟨false, msg⟩
            ∨ (RecordSeemsCorrect r msg0 = .undefined
                ∧ (∃ L, 24 ≤ r.length ∧ Leader.ParseLeader (r.take 24) = .ok L
                    ∧ L.record_length = r.length ∧ r.length ≤ 99999
                    ∧ 24 < L.base_address_of_data
                    ∧ (L.base_address_of_data - 24 - 1) % 12 = 0
                    ∧ r.length < L.base_address_of_data - 1)
                ∧ msg = "directory is not terminated with a field terminator!"))
      ∧ (firstViolatedCheck r = none → RecordSeemsCorrect r msg0 = .ret ⟨true, msg0⟩)
      ∧ (RecordSeemsCorrect r msg0 = .undefined
          ↔ (∃ L, 24 ≤ r.length ∧ Leader.ParseLeader (r.take 24) = .ok L
                    ∧ L.record_length = r.length ∧ r.length ≤ 99999
                    ∧ 24 < L.base_address_of_data
                    ∧ (L.base_address_of_data - 24 - 1) % 12 = 0
                    ∧ r.length < L.base_address_of_data - 1))
      ∧ RecordSeemsCorrect r msg0 ≠ .thrown
      ∧ RecordSeemsCorrect overrunRecord msg0 = .undefined
      ∧ firstViolatedCheck overrunRecord
          = some "directory is not terminated with a field terminator!" := by
  have hover : RecordSeemsCorrect overrunRecord msg0 = .undefined
      ∧ firstViolatedCheck overrunRecord
          = some "directory is not terminated with a field terminator!" := ⟨rfl, by decide⟩
  suffices hmain :
      ((∃ msg, RecordSeemsCorrect r msg0 = .ret ⟨true, msg⟩)
          ↔ (24 ≤ r.length ∧ ∃ L, Leader.ParseLeader (r.take 24) = .ok L
              ∧ L.record_length = r.length ∧ r.length ≤ 99999 ∧ 24 < L.base_address_of_data
              ∧ (L.base_address_of_data - 24 - 1) % 12 = 0
              ∧ r[L.base_address_of_data - 1]? = some FIELD_TERMINATOR
              ∧ r.getLast? = some RECORD_TERMINATOR))
        ∧ (∀ msg, RecordSeemsCorrect r msg0 = .ret ⟨false, msg⟩ →
            firstViolatedCheck r = some msg)
        ∧ (∀ msg, firstViolatedCheck r = some msg →
            RecordSeemsCorrect r msg0 = .ret ⟨false, msg⟩
              ∨ (RecordSeemsCorrect r msg0 = .undefined
                  ∧ (∃ L, 24 ≤ r.length ∧ Leader.ParseLeader (r.take 24) = .ok L
                    ∧ L.record_length = r.length ∧ r.length ≤ 99999
                    ∧ 24 < L.base_address_of_data
                    ∧ (L.base_address_of_data - 24 - 1) % 12 = 0
                    ∧ r.length < L.base_address_of_data - 1)
                  ∧ msg = "directory is not terminated with a field terminator!"))
        ∧ (firstViolatedCheck r = none → RecordSeemsCorrect r msg0 = .ret ⟨true, msg0⟩)
        ∧ (RecordSeemsCorrect r msg0 = .undefined
            ↔ (∃ L, 24 ≤ r.length ∧ Leader.ParseLeader (r.take 24) = .ok L
                    ∧ L.record_length = r.length ∧ r.length ≤ 99999
                    ∧ 24 < L.base_address_of_data
                    ∧ (L.base_address_of_data - 24 - 1) % 12 = 0
                    ∧ r.length < L.base_address_of_data - 1))
        ∧ RecordSeemsCorrect r msg0 ≠ .thrown by
    exact ⟨hmain.1, hmain.2.1, hmain.2.2.1, hmain.2.2.2.1, hmain.2.2.2.2.1, hmain.2.2.2.2.2,
      hover.1, hover.2⟩
  rcases RecordSeemsCorrect_head r msg0 with ⟨h24, hr⟩ | ⟨h24, e, hL, hr⟩ | ⟨h24, L, hL, hcase⟩
  · have hv : firstViolatedCheck r = some "record too small to contain leader!" := by
      simp [firstViolatedCheck, h24]
    have hn : ¬ 24 ≤ r.length := by omega
    simp [hr, hv, hn]
  · have hv : firstViolatedCheck r = some e := by
      simp [firstViolatedCheck, h24, hL]
    simp [hr, hv, hL]
  · rcases hcase with ⟨h3, hr⟩ | ⟨h3, h4, hr⟩ | ⟨h3, h4, h5, hr⟩ | ⟨h3, h4, h5, h6, hr⟩
      | ⟨h3, h4, h5, h6⟩
    · have hv : firstViolatedCheck r = some ("leader's record length (" ++ decimal L.record_length
          ++ ") does not equal actual record length (" ++ decimal r.length ++ ")!") := by
        simp [firstViolatedCheck, h24, hL, h3]
      simp [hr, hv, hL, h3]
    · have hv : firstViolatedCheck r = some ("record length (" ++ decimal r.length
          ++ ") exceeds maxium legal record length (99999)!") := by
        simp [firstViolatedCheck, h24, hL, h3, h4]
      have hn : ¬ r.length ≤ 99999 := by omega
      simp [hr, hv, hL, h3, hn]
    · have hv : firstViolatedCheck r = some "impossible base address of data!" := by
        simp [firstViolatedCheck, h24, hL, h3, h4, h5]
      have hn : ¬ 24 < L.base_address_of_data := by omega
      simp [hr, hv, hL, h3, hn]
    · have hv : firstViolatedCheck r = some "directory length is not a multiple of 12!" := by
        simp [firstViolatedCheck, h24, hL, h3, h4, h5, h6]
      simp [hr, hv, hL, h3, h6]
    · have hr := RecordSeemsCorrect_tail r msg0 L h24 hL h3 h4 h5 h6
      by_cases hout : r.length < L.base_address_of_data - 1
      · have hnone : r[L.base_address_of_data - 1]? = none := by
          rw [List.getElem?_eq_none_iff]; omega
        have hv : firstViolatedCheck r
            = some "directory is not terminated with a field terminator!" := by
          simp [firstViolatedCheck, h24, hL, h3, h4, h5, h6, hnone]
        rw [if_pos hout] at hr
        simp [hr, hv, hL, hnone, h24, h3, h4, h5, h6, hout]
      · rw [if_neg hout] at hr
        by_cases h7 : r[L.base_address_of_data - 1]? = some FIELD_TERMINATOR
        · rw [if_neg (by simp [h7])] at hr
          by_cases h8 : r.getLast? = some RECORD_TERMINATOR
          · rw [if_neg (by simp [h8])] at hr
            have hv : firstViolatedCheck r = none := by
              simp [firstViolatedCheck, h24, hL, h3, h4, h5, h6, h7, h8]
            simp [hr, hv, hL, h3, h4, h5, h6, h7, h8, h24, hout]
          · rw [if_pos h8] at hr
            have hv : firstViolatedCheck r
                = some "record is not terminated with a record terminator!" := by
              simp [firstViolatedCheck, h24, hL, h3, h4, h5, h6, h7, h8]
            simp [hr, hv, hL, h8, hout]
        · rw [if_pos h7] at hr
          have hv : firstViolatedCheck r
              = some "directory is not terminated with a field terminator!" := by
            simp [firstViolatedCheck, h24, hL, h3, h4, h5, h6, h7]
          simp [hr, hv, hL, h7, hout]

/-- C13. Length mismatch: when the byte string `r` has at least 24 bytes and its first 24
bytes parse as a leader whose `record_length` is not `len(r)`, `RecordSeemsCorrect` returns
false, whatever the base address and the terminator bytes are, and its message holds the
decimal text of the leader's `record_length` and that of `len(r)`. -/
theorem C13_length_mismatch (r : Str) (msg0 : String) (L : Leader) (h24 : 24 ≤ r.length)
    (hL : Leader.ParseLeader (r.take 24) = .ok L) (hne : L.record_length ≠ r.length) :
    RecordSeemsCorrect r msg0
      = .ret ⟨false, "leader's record length (" ++ Nat.repr L.record_length
          ++ ") does not equal actual record length (" ++ Nat.repr r.length ++ ")!"⟩ := by
  have hsub : substr r 0 Leader.LEADER_LENGTH = some (r.take 24) := by
    rw [substr_of_le r 0 _ (Nat.zero_le _)]; rfl
  have c1 : ¬ r.length < Leader.LEADER_LENGTH := by simp only [Leader.LEADER_LENGTH]; omega
  simp only [RecordSeemsCorrect, if_neg c1, hsub, hL, if_pos hne, decimal_eq_repr]

/-- The statement of C13 on a record of 99 bytes whose leader says 100. -/
theorem C13_length_mismatch_witness :
    24 ≤ shortRecord.length
      ∧ Leader.ParseLeader (shortRecord.take 24) = .ok ⟨100, 37, shortRecord.take 24⟩
      ∧ (100 : Nat) ≠ shortRecord.length
      ∧ RecordSeemsCorrect shortRecord ""
          = .ret ⟨false, "leader's record length (" ++ Nat.repr 100
              ++ ") does not equal actual record length (" ++ Nat.repr shortRecord.length
              ++ ")!"⟩
      ∧ "leader's record length (" ++ Nat.repr 100
            ++ ") does not equal actual record length (" ++ Nat.repr shortRecord.length ++ ")!"
          = "leader's record length (100) does not equal actual record length (99)!" :=
  ⟨by decide, rfl, by decide,
   C13_length_mismatch shortRecord "" ⟨100, 37, shortRecord.take 24⟩ (by decide) rfl
     (by decide),
   by decide⟩

/-- C14. End of file: on a stream with no bytes left `ReadNextRecord` returns false with an
empty message, the directory and the field data empty and the leader untouched; and on a
stream with bytes left, a return of false always carries a message that is not empty. -/
theorem C14_end_of_file (leader : Option Leader) :
    ReadNextRecord [] leader = .ret ⟨false, [], leader, [], [], ""⟩
      ∧ ∀ (input : Str) (res : RecordResult), input ≠ [] →
          ReadNextRecord input leader = .ret res → res.ok = false → res.err_msg ≠ "" := by
  refine ⟨by simpa using ReadNextRecord_short [] leader (by simp), ?_⟩
  intro input res hne h hok
  by_cases h24 : input.length < 24
  · rw [ReadNextRecord_short input leader h24] at h
    have hpos : input.length ≠ 0 := by
      intro h0; exact hne (List.length_eq_zero.mp h0)
    cases h
    simp [hpos]
  · rcases ReadNextRecord_ret_inv input leader res (by omega) h with ⟨_, hmsg⟩ | ⟨htrue, _⟩
    · exact hmsg
    · rw [hok] at htrue; cases htrue

/-- The statement of C14 on a stream of a single byte. -/
theorem C14_end_of_file_witness :
    ReadNextRecord [] none = .ret ⟨false, [], none, [], [], ""⟩
      ∧ ReadNextRecord [0x30] none
          = .ret ⟨false, [], none, [], [], "Short read for a leader or premature EOF!"⟩
      ∧ "Short read for a leader or premature EOF!" ≠ "" :=
  ⟨(C14_end_of_file none).1, by decide,
   (C14_end_of_file none).2 [0x30]
     ⟨false, [], none, [], [], "Short read for a leader or premature EOF!"⟩
     (by decide) (by decide) rfl⟩

/-- C15. Short leader read: on a stream with at least 1 and fewer than 24 bytes left,
whatever these bytes are, `ReadNextRecord` returns false with the message
`Short read for a leader or premature EOF!`, which is not empty. -/
theorem C15_short_leader_read (input : Str) (leader : Option Leader)
    (h1 : 1 ≤ input.length) (h2 : input.length < 24) :
    ReadNextRecord input leader
        = .ret ⟨false, [], leader, [], [], "Short read for a leader or premature EOF!"⟩
      ∧ "Short read for a leader or premature EOF!" ≠ "" := by
  refine ⟨?_, by decide⟩
  rw [ReadNextRecord_short input leader h2, if_pos (by omega)]

/-- The statement of C15 on the first 23 bytes of the sample stream. -/
theorem C15_short_leader_read_witness :
    1 ≤ (sampleStream.take 23).length ∧ (sampleStream.take 23).length < 24
      ∧ ReadNextRecord (sampleStream.take 23) none
          = .ret ⟨false, [], none, [], [], "Short read for a leader or premature EOF!"⟩ :=
  ⟨by decide, by decide,
   (C15_short_leader_read (sampleStream.take 23) none (by decide) (by decide)).1⟩

end MarcUtil

namespace StringUtil

/-- C16. `StringUtil::Split`: for every string `s` and delimiter `d` the function returns,
with the number of pieces it stored, whatever `*pieces` held before; this number is 1 plus
the number of occurrences of `d` in `s`; no piece contains `d`; the pieces joined in order
with `d` between them are `s`; and for the empty string the pieces are the single piece
`""`. -/
theorem C16_split (s : Str) (d : Nat) (pieces0 : List Str) :
    ∃ pieces, Split s d pieces0 = some (.ret (pieces.length, pieces))
      ∧ pieces.length = s.count d + 1
      ∧ (∀ p ∈ pieces, d ∉ p)
      ∧ [d].intercalate pieces = s
      ∧ (s = [] → pieces = [[]]) := by
  obtain ⟨stop, ps, hloop, hstop, hnot, hps, hflat, hcount⟩ :=
    Split_loop_spec s d (s.length + 1) 0 [] (by simp) (Nat.zero_le _)
  rw [List.nil_append] at hloop
  rw [List.drop_zero] at hflat hcount
  have hsub : substr_from s stop = some (s.drop stop) := by
    simp only [substr_from]
    rw [if_neg (by omega)]
  refine ⟨ps ++ [s.drop stop], ?_, ?_, ?_, ?_, ?_⟩
  · simp only [Split, hloop, hsub]
  · rw [List.length_append, hcount]; rfl
  · intro p hp
    rcases List.mem_append.mp hp with hp | hp
    · exact hps p hp
    · rw [List.mem_singleton] at hp
      rw [hp]; exact hnot
  · rw [intercalate_snoc, hflat]
  · intro hs
    subst hs
    have hnil : ps = [] := List.length_eq_zero.mp (by simpa using hcount)
    simp [hnil]

end StringUtil

namespace MarcUtil

/-- C17. Byte-transparent splitting: for every list of fields `F`, whatever bytes they hold,
and every directory `D` with as many entries as `F` has fields and every `field_length` the
length of its field plus 1 (the two lists of numbers are equal), `ReadFields` on the blob
`F[0] 0x1E F[1] 0x1E ... 0x1D`, the field data `ComposeRecord` writes, succeeds and returns
exactly `F`. -/
theorem C17_byte_transparent_splitting (F : List Str) (D : List DirectoryEntry)
    (fields0 : List Str) (msg0 : String)
    (h : D.map DirectoryEntry.field_length = F.map (fun field => field.length + 1)) :
    ReadFields (F.flatMap (fun field => field ++ [FIELD_TERMINATOR]) ++ [RECORD_TERMINATOR])
        D fields0 msg0
      = .ret ⟨true, F, msg0⟩ := by
  rw [ReadFields_of_last _ D fields0 msg0 (by simp)]
  simpa using loop_composed F D [] [] msg0 h

/-- The statement of C17 on fields that hold `0x1E`, `0x1D` and `0x1F`, one of them empty. -/
theorem C17_byte_transparent_splitting_witness :
    binaryDirectory.map DirectoryEntry.field_length
        = binaryFields.map (fun field => field.length + 1)
      ∧ binaryFields.flatMap (fun field => field ++ [FIELD_TERMINATOR]) ++ [RECORD_TERMINATOR]
          = [0x1E, 0x1D, 0x1E, 0x1E, 0x1F, 0x41, 0x1E, 0x1E, 0x1D]
      ∧ ReadFields
            (binaryFields.flatMap (fun field => field ++ [FIELD_TERMINATOR])
              ++ [RECORD_TERMINATOR])
            binaryDirectory [] ""
          = .ret ⟨true, binaryFields, ""⟩ :=
  ⟨by decide, by decide, C17_byte_transparent_splitting binaryFields binaryDirectory [] ""
    (by decide)⟩

/-- C18. Empty field data: on the empty blob `ReadFields` evaluates
`raw_fields[raw_fields.size() - 1]` with the index `SIZE_MAX`, outside the string, for every
directory: the behaviour is undefined, no failure with the missing-record-terminator message
is returned.  `ReadNextRecord` gets there on a leader whose record length equals its base
address. -/
theorem C18_empty_field_data_reads_outside (D : List DirectoryEntry) (fields0 : List Str)
    (msg0 : String) :
    index [] (size_t_pred ([] : Str).length) = none
      ∧ ReadFields [] D fields0 msg0 = .undefined
      ∧ ReadFields [] D fields0 msg0
          ≠ .ret ⟨false, [], "missing trailing record terminator!"⟩
      ∧ ReadNextRecord bareLeaderStream none = .undefined := by
  refine ⟨by decide, ReadFields_nil_blob D fields0 msg0, ?_, by decide⟩
  rw [ReadFields_nil_blob]
  simp

/-- C19. Stream position: when `ReadNextRecord` succeeds with a leader whose base address
is at least 24 and whose record length is at least the base address, it has taken exactly
`record_length` bytes off the stream: 24 for the leader, `base_address_of_data - 24` for the
directory and `record_length - base_address_of_data` for the field data; what it leaves is
the stream from byte `record_length` on. -/
theorem C19_stream_position (input : Str) (leader : Option Leader) (rest : Str) (L : Leader)
    (D : List DirectoryEntry) (F : List Str) (msg : String)
    (h : ReadNextRecord input leader = .ret ⟨true, rest, some L, D, F, msg⟩)
    (hb : 24 ≤ L.base_address_of_data) (hr : L.base_address_of_data ≤ L.record_length) :
    L.record_length ≤ input.length
      ∧ rest = input.drop L.record_length
      ∧ input = input.take 24 ++ (input.drop 24).take (L.base_address_of_data - 24)
          ++ (input.drop L.base_address_of_data).take
              (L.record_length - L.base_address_of_data) ++ rest
      ∧ (input.take 24).length = 24
      ∧ ((input.drop 24).take (L.base_address_of_data - 24)).length
          = L.base_address_of_data - 24
      ∧ ((input.drop L.base_address_of_data).take
            (L.record_length - L.base_address_of_data)).length
          = L.record_length - L.base_address_of_data := by
  have h24 : 24 ≤ input.length := by
    by_contra hlt
    rw [ReadNextRecord_short input leader (by omega)] at h
    cases h
  rcases ReadNextRecord_ret_inv input leader _ h24 h with ⟨hfalse, _⟩ | ⟨_, L', D', hL, hlead, _,
    hdl, _, _, _, hfd, hrest, _⟩
  · cases hfalse
  · simp only [Option.some.injEq] at hlead
    subst hlead
    obtain ⟨_, _, hrl, _⟩ := ParseLeader_ok _ _ hL
    have hsize : size_t_sub (size_t_sub L.record_length 24) (L.base_address_of_data - 24)
        = L.record_length - L.base_address_of_data := by
      simp only [size_t_sub]
      omega
    rw [hsize] at hfd hrest
    simp only [List.drop_drop, List.length_drop] at hfd hrest hdl
    have hsum : 24 + (L.base_address_of_data - 24)
        + (L.record_length - L.base_address_of_data) = L.record_length := by omega
    rw [hsum] at hrest
    have hd1 : (input.drop 24).drop (L.base_address_of_data - 24)
        = input.drop L.base_address_of_data := by
      rw [List.drop_drop]; congr 1; omega
    have hd2 : (input.drop L.base_address_of_data).drop
        (L.record_length - L.base_address_of_data) = input.drop L.record_length := by
      rw [List.drop_drop]; congr 1; omega
    refine ⟨by omega, hrest, ?_, by rw [List.length_take]; omega,
      by rw [List.length_take, List.length_drop]; omega,
      by rw [List.length_take, List.length_drop]; omega⟩
    rw [hrest, ← hd2, List.append_assoc, List.take_append_drop, ← hd1, List.append_assoc,
      List.take_append_drop, List.take_append_drop]

/-- The statement of C19 on the sample stream followed by three more bytes. -/
theorem C19_stream_position_witness :
    ReadNextRecord (sampleStream ++ [0x30, 0x30, 0x30]) none
        = .ret ⟨true, [0x30, 0x30, 0x30], some sampleLeader, sampleDirectory, sampleFields, ""⟩
      ∧ 24 ≤ sampleLeader.base_address_of_data
      ∧ sampleLeader.base_address_of_data ≤ sampleLeader.record_length
      ∧ sampleLeader.record_length ≤ (sampleStream ++ [0x30, 0x30, 0x30]).length
      ∧ [0x30, 0x30, 0x30]
          = (sampleStream ++ [0x30, 0x30, 0x30]).drop sampleLeader.record_length :=
  ⟨by decide, by decide, by decide,
   (C19_stream_position (sampleStream ++ [0x30, 0x30, 0x30]) none [0x30, 0x30, 0x30]
     sampleLeader sampleDirectory sampleFields "" (by decide) (by decide) (by decide)).1,
   (C19_stream_position (sampleStream ++ [0x30, 0x30, 0x30]) none [0x30, 0x30, 0x30]
     sampleLeader sampleDirectory sampleFields "" (by decide) (by decide) (by decide)).2.1⟩

/-- C20. Bounds safety of the field splitter: on a non-empty blob `R` and a directory `D`
whose entries all have `field_length >= 1`, `ReadFields` returns: it neither reads outside a
string nor is left by an exception.  The first byte it reads is the last byte of `R`, at an
index below `len(R)`; and for an entry `i` whose slice ends before `len(R)`, where the loop
goes on to take the slice, the slice lies inside `R`, has exactly `field_length` bytes, and
its last byte, the one tested, is at an index inside the slice. -/
theorem C20_bounds_safety (R : Str) (D : List DirectoryEntry) (fields0 : List Str)
    (msg0 : String) (hne : R ≠ []) (hpos : ∀ e ∈ D, 1 ≤ e.field_length) :
    (∃ res, ReadFields R D fields0 msg0 = .ret res)
      ∧ ReadFields R D fields0 msg0 ≠ .undefined
      ∧ ReadFields R D fields0 msg0 ≠ .thrown
      ∧ size_t_pred R.length < R.length
      ∧ ∀ (i : Nat) (hi : i < D.length), fieldEnd D i < R.length →
          fieldStart D i ≤ R.length
            ∧ ∃ field, substr R (fieldStart D i) D[i].field_length = some field
                ∧ field.length = D[i].field_length
                ∧ size_t_pred field.length < field.length := by
  have hlen : 1 ≤ R.length := List.length_pos.mpr hne
  have hret : ∃ res, ReadFields R D fields0 msg0 = .ret res := by
    by_cases hl : R.getLast? = some RECORD_TERMINATOR
    · rw [ReadFields_of_last R D fields0 msg0 hl]
      exact loop_returns R D 0 [] msg0 hpos (by omega)
    · exact ⟨_, ReadFields_of_not_last R D fields0 msg0 hne hl⟩
  obtain ⟨res, hres⟩ := hret
  refine ⟨⟨res, hres⟩, by rw [hres]; simp, by rw [hres]; simp, ?_, ?_⟩
  · rw [size_t_pred_of_pos _ hlen]; omega
  · intro i hi hend
    have h1 : 1 ≤ D[i].field_length := hpos _ (List.getElem_mem hi)
    have heq := fieldEnd_eq D i hi
    refine ⟨by omega, _, substr_of_le R _ _ (by omega), ?_⟩
    have hl : ((R.drop (fieldStart D i)).take D[i].field_length).length
        = D[i].field_length := by
      rw [List.length_take, List.length_drop]; omega
    rw [hl, size_t_pred_of_pos _ h1]
    exact ⟨rfl, by omega⟩

/-- The statement of C20 on the sample field data. -/
theorem C20_bounds_safety_witness :
    sampleFieldData ≠ [] ∧ (∀ e ∈ sampleDirectory, 1 ≤ e.field_length)
      ∧ (∃ res, ReadFields sampleFieldData sampleDirectory [] "" = .ret res)
      ∧ ReadFields sampleFieldData sampleDirectory [] "" ≠ .undefined :=
  ⟨by decide, by decide,
   (C20_bounds_safety sampleFieldData sampleDirectory [] "" (by decide) (by decide)).1,
   (C20_bounds_safety sampleFieldData sampleDirectory [] "" (by decide) (by decide)).2.1⟩

/-- C21. Bounds of the directory-terminator check: `overrunRecord` has 30 bytes, its leader
parses, gives the record length 30 and the base address 37, and the directory length
`37 - 24 - 1 = 12` is aligned, so `RecordSeemsCorrect` reaches the directory-terminator
check; the index `base_address_of_data - 1 = 36` it reads there is not a position of the
record, the base address is not at most `len(r)`, and the read is undefined. -/
theorem C21_terminator_index_outside :
    24 ≤ overrunRecord.length
      ∧ Leader.ParseLeader (overrunRecord.take 24) = .ok ⟨30, 37, overrunRecord.take 24⟩
      ∧ (30 : Nat) = overrunRecord.length
      ∧ overrunRecord.length ≤ 99999
      ∧ (24 : Nat) < 37
      ∧ (37 - 24 - 1) % 12 = 0
      ∧ ¬ (37 ≤ overrunRecord.length)
      ∧ index overrunRecord (37 - 1) = none
      ∧ RecordSeemsCorrect overrunRecord "" = .undefined :=
  ⟨by decide, rfl, by decide, by decide, by decide, by decide, by decide, by decide, by decide⟩

/-- C22. The two copies of `RecordSeemsCorrect` agree: for every byte string, and whatever
the message held before, the copy in `MarcUtil.cc`, which tests the record length against
99999, and the copy in `marc_grep.cc`, which does not, end in the same way, with the same
result and the same message.  The test against 99999 is never the first to fail: no record
of more than 99999 bytes has a leader that parses and gives the length of the record. -/
theorem C22_copies_agree (r : Str) (msg0 : String) :
    RecordSeemsCorrect r msg0 = marc_grep.RecordSeemsCorrect r msg0
      ∧ ¬ (24 ≤ r.length ∧ ∃ L, Leader.ParseLeader (r.take 24) = .ok L
            ∧ L.record_length = r.length ∧ 99999 < r.length) := by
  constructor
  · by_cases h24 : r.length < Leader.LEADER_LENGTH
    · simp only [RecordSeemsCorrect, marc_grep.RecordSeemsCorrect, if_pos h24]
    · have hsub : substr r 0 Leader.LEADER_LENGTH = some (r.take 24) := by
        rw [substr_of_le r 0 _ (Nat.zero_le _)]; rfl
      simp only [RecordSeemsCorrect, marc_grep.RecordSeemsCorrect, if_neg h24, hsub]
      cases hL : Leader.ParseLeader (r.take 24) with
      | error e => rfl
      | ok L =>
        by_cases h3 : L.record_length ≠ r.length
        · simp only [if_pos h3]
        · have hlt := record_length_lt r L hL (not_not.mp h3)
          have h4 : ¬ r.length > 99999 := by omega
          simp only [if_neg h3, if_neg h4]
  · rintro ⟨_, L, hL, h3, h4⟩
    have hlt := record_length_lt r L hL h3
    omega

/-- C23. Composed records validate.  For a leader of 24 retained bytes, a directory `D` of
3-byte tags and fields `F` with as many fields as `D` has entries and every `field_length`
the length of its field plus 1 (the two lists of numbers are equal), when the computed
record size `24 + 12*len(D) + 1 + sum(field_length) + 1` is at most 99999,
`RecordSeemsCorrect` returns true on the record `ComposeRecord` writes; the length of the
record is the `record_length` left in the leader, and the byte at
`base_address_of_data - 1`, the position right behind the leader and the `12*len(D)` bytes
of the directory, is the `0x1E` that follows the directory. -/
theorem C23_composed_records_validate (D : List DirectoryEntry) (F : List Str)
    (leader : Leader) (msg0 : String)
    (hF : D.map DirectoryEntry.field_length = F.map (fun field => field.length + 1))
    (hsize : 24 + 12 * D.length + 1 + totalFieldLength D + 1 ≤ 99999)
    (hraw : leader.raw_leader.length = 24)
    (htag : ∀ e ∈ D, e.tag.length = 3) :
    RecordSeemsCorrect (ComposeRecord D F leader).1 msg0 = .ret ⟨true, msg0⟩
      ∧ (ComposeRecord D F leader).1.length = (ComposeRecord D F leader).2.record_length
      ∧ (ComposeRecord D F leader).2.base_address_of_data - 1 = 24 + 12 * D.length
      ∧ (ComposeRecord D F leader).1[(ComposeRecord D F leader).2.base_address_of_data - 1]?
          = some FIELD_TERMINATOR := by
  have hlead := ComposeRecord_leader D F leader
  obtain ⟨hl24, _, hparse, hlen⟩ := composed_record_shape D F leader hraw hsize
  have hdir := directory_toString_length D htag
  have hsum : (F.map (fun field => field.length + 1)).sum = totalFieldLength D := by
    rw [← hF]; rfl
  rw [hdir, hsum] at hlen
  have hbase : (ComposeRecord D F leader).2.base_address_of_data - 1 = 24 + 12 * D.length := by
    rw [hlead]; simp only; omega
  have hterm : (ComposeRecord D F leader).1[24 + 12 * D.length]? = some FIELD_TERMINATOR := by
    have hpre : ((ComposeRecord D F leader).2.toString
        ++ D.flatMap DirectoryEntry.toString).length = 24 + 12 * D.length := by
      rw [List.length_append, hl24, hdir]
    rw [ComposeRecord_record]
    simp only [List.append_assoc]
    rw [← List.append_assoc, ← hpre, List.getElem?_append_right (Nat.le_refl _), Nat.sub_self]
    simp
  have hlast : (ComposeRecord D F leader).1.getLast? = some RECORD_TERMINATOR := by
    rw [ComposeRecord_record, List.getLast?_eq_some_iff]
    exact ⟨_, rfl⟩
  have htail := RecordSeemsCorrect_tail (ComposeRecord D F leader).1 msg0 _ (by omega) hparse
    (by rw [hlen]) (by omega) (by simp only; omega)
    (by simp only; omega)
  simp only at htail
  have hidx : 24 + 12 * D.length + 1 - 1 = 24 + 12 * D.length := by omega
  rw [hidx, if_neg (by omega), if_neg (fun hn => hn hterm), if_neg (fun hn => hn hlast)] at htail
  refine ⟨htail, ?_, hbase, ?_⟩
  · rw [hlen, hlead]
  · rw [hbase]; exact hterm

/-- The statement of C23 on the sample directory, fields and leader. -/
theorem C23_composed_records_validate_witness :
    sampleDirectory.map DirectoryEntry.field_length
        = sampleFields.map (fun field => field.length + 1)
      ∧ 24 + 12 * sampleDirectory.length + 1 + totalFieldLength sampleDirectory + 1 ≤ 99999
      ∧ sampleLeader.raw_leader.length = 24
      ∧ (∀ e ∈ sampleDirectory, e.tag.length = 3)
      ∧ RecordSeemsCorrect (ComposeRecord sampleDirectory sampleFields sampleLeader).1 ""
          = .ret ⟨true, ""⟩ :=
  ⟨by decide, by decide, by decide, by decide,
   (C23_composed_records_validate sampleDirectory sampleFields sampleLeader ""
     (by decide) (by decide) (by decide) (by decide)).1⟩

end MarcUtil
